import Mathlib

/-!
Verification of the core packet/message pipeline of an OpenPGP (RFC 9580)
implementation.  Byte buffers are modelled as `List Nat` with every element
intended to lie below 256; machine-integer casts from the source are made
explicit with `% 2 ^ w`.  External cryptographic primitives (AEAD modes and
HKDF) are out of scope for the library core and are modelled as function
parameters carrying their named contracts; the fingerprint hash functions
(MD5, SHA-1, SHA-256) are modelled concretely from their defining RFCs.
-/

namespace Rpgp

/-- Big-endian byte at position `k` (counted from the least significant end)
of a natural number, as produced by truncating machine-integer casts. -/
def byteAt (n k : Nat) : Nat := n / 2 ^ (8 * k) % 256

/-- Big-endian 2-byte encoding, as Rust's `u16` big-endian write (the value is
taken mod `2 ^ 16` by the cast). -/
def be16 (n : Nat) : List Nat := [byteAt n 1, byteAt n 0]

/-- Big-endian 4-byte encoding, as Rust's `u32` big-endian write. -/
def be32 (n : Nat) : List Nat := [byteAt n 3, byteAt n 2, byteAt n 1, byteAt n 0]

/-- Big-endian 8-byte encoding, as Rust's `u64::to_be_bytes`. -/
def be64 (n : Nat) : List Nat :=
  [byteAt n 7, byteAt n 6, byteAt n 5, byteAt n 4,
   byteAt n 3, byteAt n 2, byteAt n 1, byteAt n 0]

theorem be16_length (n : Nat) : (be16 n).length = 2 := rfl

theorem be32_length (n : Nat) : (be32 n).length = 4 := rfl

theorem be64_length (n : Nat) : (be64 n).length = 8 := rfl

/-- Read a big-endian word from a byte list (most significant byte first). -/
def word (l : List Nat) : Nat := l.foldl (fun a b => a * 256 + b) 0

/-- Split a list into consecutive chunks of `c` elements, the last chunk
possibly shorter; Rust's `slice::chunks` (which yields nothing on an empty
slice and is never called with `c = 0` by this code base). -/
def chunkList (l : List α) (c : Nat) : List (List α) :=
  if l.isEmpty ∨ c = 0 then []
  else l.take c :: chunkList (l.drop c) c
termination_by l.length
decreasing_by
  simp only [List.isEmpty_iff, not_or] at *
  have : 0 < l.length := List.length_pos.mpr (by tauto)
  have : 0 < c := Nat.pos_of_ne_zero (by tauto)
  simp [List.length_drop]
  omega

theorem chunkList_nil (c : Nat) : chunkList ([] : List α) c = [] := by
  rw [chunkList]
  simp

theorem chunkList_zero (l : List α) : chunkList l 0 = [] := by
  rw [chunkList]
  simp

theorem chunkList_of_ne_nil (l : List α) (c : Nat) (h : l ≠ []) (hc : c ≠ 0) :
    chunkList l c = l.take c :: chunkList (l.drop c) c := by
  rw [chunkList]
  simp [h, hc]

/-- Concatenating the chunks recovers the original list. -/
theorem chunkList_join (l : List α) (c : Nat) (hc : c ≠ 0) :
    (chunkList l c).flatten = l := by
  induction l, c using chunkList.induct with
  | case1 l c h =>
    rcases h with h | h
    · rw [List.isEmpty_iff] at h
      simp [h, chunkList_nil]
    · omega
  | case2 l c h ih =>
    simp only [List.isEmpty_iff, not_or] at h
    rw [chunkList_of_ne_nil l c h.1 h.2]
    simp [ih hc]

/-- Every chunk is nonempty and no longer than the chunk size. -/
theorem chunkList_mem_length (l : List α) (c : Nat) (x : List α)
    (hx : x ∈ chunkList l c) : x ≠ [] ∧ x.length ≤ c := by
  induction l, c using chunkList.induct with
  | case1 l c h =>
    rcases h with h | h
    · rw [List.isEmpty_iff] at h
      rw [h, chunkList_nil] at hx
      cases hx
    · rw [h, chunkList_zero] at hx
      cases hx
  | case2 l c h ih =>
    simp only [List.isEmpty_iff, not_or] at h
    rw [chunkList_of_ne_nil l c h.1 h.2] at hx
    rcases List.mem_cons.mp hx with rfl | hx
    · constructor
      · simp only [ne_eq, List.take_eq_nil_iff]
        push_neg
        exact ⟨h.2, h.1⟩
      · simp [List.length_take]
    · exact ih hx

/-- The number of chunks is the length divided by `c`, rounded up. -/
theorem chunkList_length (l : List α) (c : Nat) (hc : c ≠ 0) :
    (chunkList l c).length = (l.length + c - 1) / c := by
  induction l, c using chunkList.induct with
  | case1 l c h =>
    rcases h with h | h
    · rw [List.isEmpty_iff] at h
      subst h
      rw [chunkList_nil]
      have h0 : (0 + c - 1) / c = 0 := Nat.div_eq_of_lt (by omega)
      simpa using h0.symm
    · omega
  | case2 l c h ih =>
    simp only [List.isEmpty_iff, not_or] at h
    rw [chunkList_of_ne_nil l c h.1 h.2]
    have hlen : 0 < l.length := List.length_pos.mpr h.1
    have hcpos : 0 < c := Nat.pos_of_ne_zero h.2
    simp only [List.length_cons, ih hc, List.length_drop]
    rcases Nat.lt_or_ge l.length c with hlt | hge
    · have h1 : l.length - c = 0 := by omega
      have h2 : (0 + c - 1) / c = 0 := Nat.div_eq_of_lt (by omega)
      have h3 : l.length + c - 1 = (l.length - 1) + c := by omega
      have h4 : (l.length - 1) / c = 0 := Nat.div_eq_of_lt (by omega)
      rw [h1, h2, h3, Nat.add_div_right _ hcpos, h4]
    · have h1 : l.length - c + c - 1 = l.length - 1 := by omega
      have h2 : l.length + c - 1 = (l.length - 1) + c := by omega
      rw [h1, h2, Nat.add_div_right _ hcpos]

/-- A full-length first chunk splits off exactly. -/
theorem chunkList_append_full (x rest : List α) (c : Nat) (hx : x.length = c)
    (hc : c ≠ 0) :
    chunkList (x ++ rest) c = x :: chunkList rest c := by
  have hne : x ++ rest ≠ [] := by
    intro h
    rcases List.append_eq_nil.mp h with ⟨rfl, -⟩
    simp at hx
    omega
  have htake : (x ++ rest).take c = x := by
    rw [List.take_append_eq_append_take, List.take_of_length_le (le_of_eq hx),
      hx, Nat.sub_self, List.take_zero, List.append_nil]
  have hdrop : (x ++ rest).drop c = rest := by
    rw [List.drop_append_eq_append_drop, List.drop_eq_nil_of_le (le_of_eq hx),
      hx, Nat.sub_self, List.drop_zero, List.nil_append]
  rw [chunkList_of_ne_nil _ _ hne hc, htake, hdrop]

/-- A nonempty list no longer than the chunk size forms a single chunk. -/
theorem chunkList_single (x : List α) (c : Nat) (hne : x ≠ [])
    (hle : x.length ≤ c) (hc : c ≠ 0) : chunkList x c = [x] := by
  rw [chunkList_of_ne_nil _ _ hne hc]
  rw [List.take_of_length_le hle, List.drop_eq_nil_of_le hle, chunkList_nil]

/-! ## Packet framing: header encoding (`src/types/packet.rs`)

`Version::write_header` emits a packet header for a tag and a body length,
in the legacy (old) or current (new) OpenPGP format. -/

/-- Old versus new packet header format (`Version` in `src/types/packet.rs`). -/
inductive HeaderVersion
  | old
  | new
deriving DecidableEq, Repr

/-- Packet length as recovered by a header decoder. -/
inductive DecodedLength
  | fixedLen (n : Nat)
  | partBody (n : Nat)
  | indeterminate
deriving DecidableEq, Repr

/-- Embedding of `Version::write_header` (`src/types/packet.rs` lines 81-111).
`tag` and the length-field bytes are `u8` values: the shifts and casts wrap
mod 256 exactly as in the source. -/
def write_header (v : HeaderVersion) (tag : Nat) (len : Nat) : List Nat :=
  match v with
  | .old =>
    if len < 256 then
      [0x80 ||| tag * 4 % 256, len]
    else if len < 65536 then
      (0x81 ||| tag * 4 % 256) :: be16 len
    else
      (0x82 ||| tag * 4 % 256) :: be32 len
  | .new =>
    (0xC0 ||| tag % 256) ::
      (if len < 192 then
        [len]
      else if len < 8384 then
        [(len - 192) / 256 + 192, (len - 192) % 256]
      else
        255 :: be32 len)

/-- Old-format length field decoding: `lt` is the two low bits of the first
header byte, selecting a 1-, 2- or 4-byte big-endian length or the
indeterminate length. -/
def readOldLen (tag lt : Nat) (rest : List Nat) :
    Option (HeaderVersion × Nat × DecodedLength × List Nat) :=
  if lt = 0 then
    if rest.length < 1 then none
    else some (.old, tag, .fixedLen (word (rest.take 1)), rest.drop 1)
  else if lt = 1 then
    if rest.length < 2 then none
    else some (.old, tag, .fixedLen (word (rest.take 2)), rest.drop 2)
  else if lt = 2 then
    if rest.length < 4 then none
    else some (.old, tag, .fixedLen (word (rest.take 4)), rest.drop 4)
  else some (.old, tag, .indeterminate, rest)

/-- New-format length decoding: the OpenPGP length encoding (`<192` one byte;
`192..=223` two bytes encoding `(b0-192)*256 + b1 + 192`; `224..=254` a
partial body length of `2^(b0 % 32)`; `255` a 4-byte big-endian length). -/
def readNewLen (tag : Nat) (rest : List Nat) :
    Option (HeaderVersion × Nat × DecodedLength × List Nat) :=
  match rest with
  | [] => none
  | l0 :: r =>
    if l0 < 192 then some (.new, tag, .fixedLen l0, r)
    else if l0 ≤ 223 then
      if r.length < 1 then none
      else some (.new, tag, .fixedLen ((l0 - 192) * 256 + word (r.take 1) + 192), r.drop 1)
    else if l0 ≤ 254 then some (.new, tag, .partBody (2 ^ (l0 % 32)), r)
    else
      if r.length < 4 then none
      else some (.new, tag, .fixedLen (word (r.take 4)), r.drop 4)

/-- Modelled from the spec: packet-header decoding (§4.1).  First byte: bit 7
is always 1; bit 6 selects the new format.  Old format: bits 5-2 are the tag,
bits 1-0 select the length encoding.  New format: bits 5-0 are the tag,
followed by the OpenPGP length encoding. -/
def read_header (bytes : List Nat) :
    Option (HeaderVersion × Nat × DecodedLength × List Nat) :=
  match bytes with
  | [] => none
  | b0 :: rest =>
    if b0 / 128 % 2 ≠ 1 then none
    else if b0 / 64 % 2 = 1 then readNewLen (b0 % 64) rest
    else readOldLen (b0 / 4 % 16) (b0 % 4) rest

/-- Size in bytes of the shortest length field that can hold `len` in the
given format: old format chooses among the 1-, 2- and 4-byte fixed forms; new
format among the one-octet (`len < 192`), two-octet (`192 ≤ len ≤ 8383`) and
five-octet (`0xFF` prefix plus 4 bytes) forms. -/
def shortestLenField (v : HeaderVersion) (len : Nat) : Nat :=
  match v with
  | .old => if len < 256 then 1 else if len < 65536 then 2 else 4
  | .new => if len < 192 then 1 else if len < 8384 then 2 else 5

theorem word_one (a : Nat) : word [a] = a := by
  simp [word]

theorem word_two (a b : Nat) : word [a, b] = a * 256 + b := by
  simp [word]

theorem word_four (a b c d : Nat) :
    word [a, b, c, d] = ((a * 256 + b) * 256 + c) * 256 + d := by
  simp [word]

theorem or_low_of_lt_64 : ∀ t < 64, 128 ||| t = 128 + t ∧ 192 ||| t = 192 + t := by decide

theorem or_low_old : ∀ t < 16,
    129 ||| t * 4 = 129 + t * 4 ∧ 130 ||| t * 4 = 130 + t * 4 := by decide

theorem be32_word (n : Nat) (h : n < 2 ^ 32) :
    ((byteAt n 3 * 256 + byteAt n 2) * 256 + byteAt n 1) * 256 + byteAt n 0 = n := by
  simp only [byteAt]
  norm_num
  omega

theorem be16_word (n : Nat) (h : n < 2 ^ 16) :
    byteAt n 1 * 256 + byteAt n 0 = n := by
  simp only [byteAt]
  norm_num
  omega

/-- C5 counterexample: the claim quantifies over every tag, but the old
header format only has a 4-bit tag field.  Writing tag 18
(SymEncryptedProtectedData) in the old format sets bit 6 of the first byte,
so the emitted header `[0xC8, 0x00]` decodes as a new-format header with tag
8 (CompressedData), not as an old-format header with tag 18. -/
theorem write_header_old_tag18_misparses :
    write_header .old 18 0 = [200, 0] ∧
    read_header [200, 0] = some (.new, 8, .fixedLen 0, []) := by decide

/-- C5 (amended): for every old-format tag below 16, every new-format tag
below 64, and every length below `2^32`, `write_header` emits the shortest
header form consistent with the encoding (its length field has
`shortestLenField` bytes), and decoding the emitted bytes yields the original
format, tag and length, consuming exactly the header. -/
theorem write_header_shortest_roundtrip (v : HeaderVersion) (tag len : Nat)
    (rest : List Nat) (hOld : v = .old → tag < 16) (hNew : v = .new → tag < 64)
    (hlen : len < 2 ^ 32) :
    read_header (write_header v tag len ++ rest) =
      some (v, tag, .fixedLen len, rest) ∧
    (write_header v tag len).length = 1 + shortestLenField v len := by
  cases v with
  | old =>
    have htag : tag < 16 := hOld rfl
    have htag4 : tag * 4 % 256 = tag * 4 := Nat.mod_eq_of_lt (by omega)
    by_cases h1 : len < 256
    · have hb : 128 ||| tag * 4 % 256 = 128 + tag * 4 := by
        rw [htag4]
        exact (or_low_of_lt_64 (tag * 4) (by omega)).1
      simp only [write_header, shortestLenField, if_pos h1, hb, List.cons_append,
        List.nil_append]
      refine ⟨?_, rfl⟩
      rw [read_header]
      have c1 : ¬((128 + tag * 4) / 128 % 2 ≠ 1) := by omega
      have c2 : ¬((128 + tag * 4) / 64 % 2 = 1) := by omega
      have c3 : (128 + tag * 4) % 4 = 0 := by omega
      have c4 : (128 + tag * 4) / 4 % 16 = tag := by omega
      rw [if_neg c1, if_neg c2, c3, c4, readOldLen, if_pos rfl,
        if_neg (by simp : ¬(len :: rest).length < 1)]
      simp [word_one]
    · by_cases h2 : len < 65536
      · have hb : 129 ||| tag * 4 % 256 = 129 + tag * 4 := by
          rw [htag4]
          exact (or_low_old tag htag).1
        simp only [write_header, shortestLenField, if_neg h1, if_pos h2, hb, be16,
          List.cons_append, List.nil_append]
        refine ⟨?_, rfl⟩
        rw [read_header]
        have c1 : ¬((129 + tag * 4) / 128 % 2 ≠ 1) := by omega
        have c2 : ¬((129 + tag * 4) / 64 % 2 = 1) := by omega
        have c3 : (129 + tag * 4) % 4 = 1 := by omega
        have c4 : (129 + tag * 4) / 4 % 16 = tag := by omega
        rw [if_neg c1, if_neg c2, c3, c4, readOldLen, if_neg (by omega : ¬(1 = 0)),
          if_pos rfl]
        have hlist : ¬(byteAt len 1 :: byteAt len 0 :: rest).length < 2 := by simp
        rw [if_neg hlist]
        simp only [List.take_succ_cons, List.take_zero, List.drop_succ_cons,
          List.drop_zero, word_two, be16_word len h2]
      · have hb : 130 ||| tag * 4 % 256 = 130 + tag * 4 := by
          rw [htag4]
          exact (or_low_old tag htag).2
        simp only [write_header, shortestLenField, if_neg h1, if_neg h2, hb, be32,
          List.cons_append, List.nil_append]
        refine ⟨?_, rfl⟩
        rw [read_header]
        have c1 : ¬((130 + tag * 4) / 128 % 2 ≠ 1) := by omega
        have c2 : ¬((130 + tag * 4) / 64 % 2 = 1) := by omega
        have c3 : (130 + tag * 4) % 4 = 2 := by omega
        have c4 : (130 + tag * 4) / 4 % 16 = tag := by omega
        rw [if_neg c1, if_neg c2, c3, c4, readOldLen, if_neg (by omega : ¬(2 = 0)),
          if_neg (by omega : ¬(2 = 1)), if_pos rfl]
        have hlist :
            ¬(byteAt len 3 :: byteAt len 2 :: byteAt len 1 :: byteAt len 0 ::
              rest).length < 4 := by simp
        rw [if_neg hlist]
        simp only [List.take_succ_cons, List.take_zero, List.drop_succ_cons,
          List.drop_zero, word_four, be32_word len hlen]
  | new =>
    have htag : tag < 64 := hNew rfl
    have htagm : tag % 256 = tag := Nat.mod_eq_of_lt (by omega)
    have hb : 192 ||| tag % 256 = 192 + tag := by
      rw [htagm]
      exact (or_low_of_lt_64 tag htag).2
    have c1 : ¬((192 + tag) / 128 % 2 ≠ 1) := by omega
    have c2 : (192 + tag) / 64 % 2 = 1 := by omega
    have c3 : (192 + tag) % 64 = tag := by omega
    by_cases h1 : len < 192
    · simp only [write_header, shortestLenField, if_pos h1, hb, List.cons_append,
        List.nil_append]
      refine ⟨?_, rfl⟩
      rw [read_header, if_neg c1, if_pos c2, c3, readNewLen, if_pos h1]
    · by_cases h2 : len < 8384
      · simp only [write_header, shortestLenField, if_neg h1, if_pos h2, hb,
          List.cons_append, List.nil_append]
        refine ⟨?_, rfl⟩
        rw [read_header, if_neg c1, if_pos c2, c3, readNewLen]
        have d1 : ¬((len - 192) / 256 + 192 < 192) := by omega
        have d2 : (len - 192) / 256 + 192 ≤ 223 := by omega
        rw [if_neg d1, if_pos d2,
          if_neg (by simp : ¬((len - 192) % 256 :: rest).length < 1)]
        simp only [List.take_succ_cons, List.take_zero, List.drop_succ_cons,
          List.drop_zero, word_one]
        have d3 : ((len - 192) / 256 + 192 - 192) * 256 + (len - 192) % 256 + 192 = len := by
          omega
        rw [d3]
      · simp only [write_header, shortestLenField, if_neg h1, if_neg h2, hb, be32,
          List.cons_append, List.nil_append]
        refine ⟨?_, rfl⟩
        rw [read_header, if_neg c1, if_pos c2, c3, readNewLen]
        have d1 : ¬(255 < 192) := by omega
        have d2 : ¬(255 ≤ 223) := by omega
        have d3 : ¬(255 ≤ 254) := by omega
        have hlist :
            ¬(byteAt len 3 :: byteAt len 2 :: byteAt len 1 :: byteAt len 0 ::
              rest).length < 4 := by simp
        rw [if_neg d1, if_neg d2, if_neg d3, if_neg hlist]
        simp only [List.take_succ_cons, List.take_zero, List.drop_succ_cons,
          List.drop_zero, word_four, be32_word len hlen]

/-- C5 witness: the amended round-trip theorem applied at concrete inputs in
both formats and all emitted length-field widths. -/
theorem write_header_shortest_roundtrip_witness :
    (read_header (write_header .new 18 8383 ++ [9, 9]) =
        some (.new, 18, .fixedLen 8383, [9, 9]) ∧
      (write_header .new 18 8383).length = 1 + shortestLenField .new 8383) ∧
    (read_header (write_header .old 11 70000 ++ []) =
        some (.old, 11, .fixedLen 70000, []) ∧
      (write_header .old 11 70000).length = 1 + shortestLenField .old 70000) :=
  ⟨write_header_shortest_roundtrip .new 18 8383 [9, 9]
      (by intro h; cases h) (fun _ => by decide) (by decide),
    write_header_shortest_roundtrip .old 11 70000 []
      (fun _ => by decide) (by intro h; cases h) (by decide)⟩

/-! ## SEIPDv2 engine (`src/packet/sym_encrypted_protected_data.rs`)

The AEAD modes and HKDF-SHA256 are external cryptographic primitives (spec
§1: "treated as opaque operations with named contracts"); they enter the
embedding as structure fields and function parameters together with their
contracts (`AeadSound`, `HkdfSound`). -/

/-- Embedding of `expand_chunk_size` (`1u32 << (s as u32 + 6)`, lines
345-347): the shifted value while the shift amount stays below the u32
width; `none` models the arithmetic overflow of a `u32` shift by 32 or more
bits. -/
def expand_chunk_size (s : Nat) : Option Nat :=
  if s + 6 < 32 then some (2 ^ (s + 6)) else none

/-- A symmetric cipher algorithm as used by the SEIPDv2 engine: its one-octet
wire identifier and its key size in bytes. -/
structure SymAlg where
  algId : Nat
  keySize : Nat
deriving DecidableEq, Repr

/-- An AEAD algorithm as used by the SEIPDv2 engine: wire identifier, nonce
size, optional tag size, and the opaque encryption and decryption
primitives.  `enc symId key nonce aad plain` returns the ciphertext and the
authentication tag (`encrypt_in_place` returns the tag and mutates the
buffer); `dec symId key nonce aad tag ct` returns the plaintext or fails. -/
structure AeadAlg where
  algId : Nat
  nonceSize : Nat
  tagSize : Option Nat
  enc : Nat → List Nat → List Nat → List Nat → List Nat → List Nat × List Nat
  dec : Nat → List Nat → List Nat → List Nat → List Nat → List Nat → Option (List Nat)

/-- The named contract of an AEAD algorithm with tag size `t`: ciphertext as
long as the plaintext, tags of length `t`, and decryption inverts
encryption under matching key, nonce and associated data. -/
structure AeadSound (A : AeadAlg) (t : Nat) : Prop where
  tag_size : A.tagSize = some t
  enc_len : ∀ symId k n a p, (A.enc symId k n a p).1.length = p.length
  tag_len : ∀ symId k n a p, (A.enc symId k n a p).2.length = t
  dec_enc : ∀ symId k n a p,
    A.dec symId k n a (A.enc symId k n a p).2 (A.enc symId k n a p).1 = some p

/-- The named contract of HKDF Extract-then-Expand (`hkdf salt ikm info L`):
the output has length `L`, and outputs for the same inputs are
prefix-consistent across output lengths (RFC 5869 expansion produces a
stream that is truncated to `L`). -/
structure HkdfSound (hkdf : List Nat → List Nat → List Nat → Nat → List Nat) : Prop where
  len_eq : ∀ salt ikm info L, (hkdf salt ikm info L).length = L
  take_eq : ∀ salt ikm info L₁ L₂, L₁ ≤ L₂ →
    hkdf salt ikm info L₁ = (hkdf salt ikm info L₂).take L₁

/-- Embedding of `SymEncryptedProtectedData::aead_setup` (lines 72-100).
`18` is the SymEncryptedProtectedData packet tag; `Tag::encode` is not part
of this source tree and is modelled from the spec (§4.7:
`info = [tag=18, ver=2, sym_alg, aead_alg, chunk_size_exp]`).  The source
expands the HKDF to a fixed 42-byte buffer, takes the first `key_size` bytes
as the message key and the next `nonce_size - 8` bytes as the nonce prefix,
and zero-fills the final 8 nonce bytes (the chunk-0 index). -/
def aead_setup (hkdf : List Nat → List Nat → List Nat → Nat → List Nat)
    (sym : SymAlg) (aead : AeadAlg) (chunkSize : Nat) (salt ikm : List Nat) :
    List Nat × List Nat × List Nat :=
  ([18, 2, sym.algId, aead.algId, chunkSize],
    (hkdf salt ikm [18, 2, sym.algId, aead.algId, chunkSize] 42).take sym.keySize,
    ((hkdf salt ikm [18, 2, sym.algId, aead.algId, chunkSize] 42).drop
        sym.keySize).take (aead.nonceSize - 8) ++
      List.replicate (aead.nonceSize - (aead.nonceSize - 8)) 0)

/-- One nonce update step: overwrite the final 8 bytes of the nonce with the
big-endian encoding of the next chunk index
(`nonce[l..].copy_from_slice(&chunk_index.to_be_bytes())`). -/
def seipdNonceNext (nonce : List Nat) (idx : Nat) : List Nat :=
  nonce.take (nonce.length - 8) ++ be64 idx

/-- Errors of the SEIPDv2 engine.  `truncatedChunk` models the slice-index
panic that a chunk shorter than the tag would cause in `decrypt`. -/
inductive SeipdErr
  | badSessionKeyLength
  | chunkSizeOverflow
  | unsupportedAeadTagSize
  | invalidInput
  | truncatedChunk
  | authFailed
deriving DecidableEq, Repr

/-- The chunk loop of `encrypt_seipdv2` (lines 140-158): encrypt each chunk
under the current nonce, append ciphertext and tag, then bump the chunk
index into the nonce.  Returns the concatenated output and the final nonce
state. -/
def encryptChunks (A : AeadAlg) (symId : Nat) (key info : List Nat) :
    List (List Nat) → List Nat → Nat → List Nat × List Nat
  | [], nonce, _ => ([], nonce)
  | ch :: rest, nonce, idx =>
    let ct := A.enc symId key nonce info ch
    let r := encryptChunks A symId key info rest (seipdNonceNext nonce (idx + 1)) (idx + 1)
    (ct.1 ++ ct.2 ++ r.1, r.2)

/-- A SEIPDv2 packet body (`Data::V2`): algorithms, chunk size parameter,
32-byte salt, and the encrypted data (chunks with tags plus final tag). -/
structure SeipdV2 where
  sym : SymAlg
  aead : AeadAlg
  chunkSize : Nat
  salt : List Nat
  data : List Nat

/-- Embedding of `SymEncryptedProtectedData::encrypt_seipdv2` (lines
103-188).  The salt is drawn by the caller's RNG and enters as a parameter;
`hkdf` is the external HKDF-SHA256 primitive. -/
def encrypt_seipdv2 (hkdf : List Nat → List Nat → List Nat → Nat → List Nat)
    (sym : SymAlg) (aead : AeadAlg) (chunkSize : Nat) (salt : List Nat)
    (sessionKey plaintext : List Nat) : Except SeipdErr SeipdV2 :=
  if sessionKey.length ≠ sym.keySize then .error .badSessionKeyLength
  else
    (expand_chunk_size chunkSize).elim (.error .chunkSizeOverflow) fun c =>
      let setup := aead_setup hkdf sym aead chunkSize salt sessionKey
      let r := encryptChunks aead sym.algId setup.2.1 setup.1 (chunkList plaintext c)
        setup.2.2 0
      let finalInfo := setup.1 ++ be64 plaintext.length
      let finalTag := (aead.enc sym.algId setup.2.1 r.2 finalInfo []).2
      .ok ⟨sym, aead, chunkSize, salt, r.1 ++ finalTag⟩

/-- The chunk loop of `decrypt` (lines 269-282): split each piece into
ciphertext and trailing tag, decrypt and authenticate it under the current
nonce, then bump the chunk index.  Returns the concatenated plaintext and
the final nonce state. -/
def decryptChunks (A : AeadAlg) (symId : Nat) (key info : List Nat) (t : Nat) :
    List (List Nat) → List Nat → Nat → Except SeipdErr (List Nat × List Nat)
  | [], nonce, _ => .ok ([], nonce)
  | piece :: rest, nonce, idx =>
    if piece.length < t then .error .truncatedChunk
    else
      (A.dec symId key nonce info (piece.drop (piece.length - t))
          (piece.take (piece.length - t))).elim (.error .authFailed) fun pt =>
        (decryptChunks A symId key info t rest (seipdNonceNext nonce (idx + 1))
            (idx + 1)).bind fun r => .ok (pt ++ r.1, r.2)

/-- Embedding of `SymEncryptedProtectedData::decrypt` for `Data::V2` (lines
222-304): re-derive the key schedule, split off the final tag, decrypt the
chunk sequence, then verify the final tag over the empty string with the
associated data extended by the plaintext octet count. -/
def SeipdV2.decrypt (hkdf : List Nat → List Nat → List Nat → Nat → List Nat)
    (sessionKey : List Nat) (p : SeipdV2) : Except SeipdErr (List Nat) :=
  if sessionKey.length ≠ p.sym.keySize then .error .badSessionKeyLength
  else
    (expand_chunk_size p.chunkSize).elim (.error .chunkSizeOverflow) fun c =>
      let setup := aead_setup hkdf p.sym p.aead p.chunkSize p.salt sessionKey
      p.aead.tagSize.elim (.error .unsupportedAeadTagSize) fun t =>
        if p.data.length < t then .error .invalidInput
        else
          (decryptChunks p.aead p.sym.algId setup.2.1 setup.1 t
              (chunkList (p.data.take (p.data.length - t)) (c + t)) setup.2.2 0).bind
            fun r =>
              (p.aead.dec p.sym.algId setup.2.1 r.2 (setup.1 ++ be64 r.1.length)
                  (p.data.drop (p.data.length - t)) []).elim (.error .authFailed)
                fun _ => .ok r.1

/-- C10: `expand_chunk_size` computes `2^(s+6)` exactly (without u32
overflow) for every chunk size parameter `s ≤ 25`, and overflows (shift
amount at or past the u32 width) for every `s ≥ 26`; under the `s ≤ 25`
precondition the chunking used by encryption partitions the plaintext into
chunks of size `2^(s+6)` (all chunks no longer than that, concatenating
them restores the data). -/
theorem expand_chunk_size_bounds :
    (∀ s : Nat, s ≤ 25 →
      expand_chunk_size s = some (2 ^ (s + 6)) ∧ 2 ^ (s + 6) < 2 ^ 32) ∧
    (∀ s : Nat, 26 ≤ s → expand_chunk_size s = none) ∧
    (∀ (pt : List Nat) (s : Nat), s ≤ 25 →
      (chunkList pt (2 ^ (s + 6))).flatten = pt ∧
      ∀ x ∈ chunkList pt (2 ^ (s + 6)), x.length ≤ 2 ^ (s + 6)) := by
  refine ⟨fun s hs => ⟨?_, ?_⟩, fun s hs => ?_, fun pt s hs => ⟨?_, fun x hx => ?_⟩⟩
  · rw [expand_chunk_size, if_pos (by omega)]
  · calc 2 ^ (s + 6) ≤ 2 ^ 31 := Nat.pow_le_pow_right (by omega) (by omega)
      _ < 2 ^ 32 := by norm_num
  · rw [expand_chunk_size, if_neg (by omega)]
  · exact chunkList_join pt _ (by positivity : (0:Nat) < 2 ^ (s + 6)).ne'
  · exact (chunkList_mem_length pt _ x hx).2

/-- C10 witness: the bounds theorem applied at the boundary chunk size
parameters 25 and 26 and at a concrete plaintext. -/
theorem expand_chunk_size_bounds_witness :
    expand_chunk_size 25 = some (2 ^ (25 + 6)) ∧ expand_chunk_size 26 = none ∧
    (chunkList [1, 2, 3] (2 ^ (0 + 6))).flatten = [1, 2, 3] :=
  ⟨(expand_chunk_size_bounds.1 25 (by decide)).1,
    expand_chunk_size_bounds.2.1 26 (by decide),
    (expand_chunk_size_bounds.2.2 [1, 2, 3] 0 (by decide)).1⟩

theorem encryptChunks_nil (A : AeadAlg) (symId : Nat) (key info nonce : List Nat)
    (idx : Nat) : encryptChunks A symId key info [] nonce idx = ([], nonce) := rfl

theorem encryptChunks_cons (A : AeadAlg) (symId : Nat) (key info nonce : List Nat)
    (idx : Nat) (ch : List Nat) (rest : List (List Nat)) :
    encryptChunks A symId key info (ch :: rest) nonce idx =
      ((A.enc symId key nonce info ch).1 ++ (A.enc symId key nonce info ch).2 ++
        (encryptChunks A symId key info rest (seipdNonceNext nonce (idx + 1)) (idx + 1)).1,
       (encryptChunks A symId key info rest (seipdNonceNext nonce (idx + 1)) (idx + 1)).2) := rfl

theorem decryptChunks_nil (A : AeadAlg) (symId : Nat) (key info nonce : List Nat)
    (t idx : Nat) : decryptChunks A symId key info t [] nonce idx = .ok ([], nonce) := rfl

theorem decryptChunks_cons (A : AeadAlg) (symId : Nat) (key info nonce : List Nat)
    (t idx : Nat) (piece : List Nat) (rest : List (List Nat)) :
    decryptChunks A symId key info t (piece :: rest) nonce idx =
      if piece.length < t then .error .truncatedChunk
      else
        (A.dec symId key nonce info (piece.drop (piece.length - t))
            (piece.take (piece.length - t))).elim (.error .authFailed) fun pt =>
          (decryptChunks A symId key info t rest (seipdNonceNext nonce (idx + 1))
              (idx + 1)).bind fun r => .ok (pt ++ r.1, r.2) := rfl

/-- One encrypted chunk piece (ciphertext plus trailing tag) splits back into
ciphertext and tag at `piece.length - t`. -/
theorem decrypt_piece (A : AeadAlg) (t : Nat) (hs : AeadSound A t) (symId : Nat)
    (key info nonce ch piece : List Nat)
    (hp : piece = (A.enc symId key nonce info ch).1 ++ (A.enc symId key nonce info ch).2) :
    ¬piece.length < t ∧
      piece.take (piece.length - t) = (A.enc symId key nonce info ch).1 ∧
      piece.drop (piece.length - t) = (A.enc symId key nonce info ch).2 := by
  subst hp
  have h1 := hs.enc_len symId key nonce info ch
  have h2 := hs.tag_len symId key nonce info ch
  have hlen : ((A.enc symId key nonce info ch).1 ++ (A.enc symId key nonce info ch).2).length
      = ch.length + t := by
    rw [List.length_append, h1, h2]
  have hsub : (A.enc symId key nonce info ch).1.length =
      ((A.enc symId key nonce info ch).1 ++ (A.enc symId key nonce info ch).2).length - t := by
    omega
  exact ⟨by omega, List.take_left' hsub, List.drop_left' hsub⟩

/-- Round trip of the chunk loops: decrypting the re-chunked output of the
encryption loop (pieces of `c + t` bytes) recovers the chunked plaintext and
the same final nonce state. -/
theorem decryptChunks_encryptChunks (A : AeadAlg) (t : Nat) (hs : AeadSound A t)
    (symId : Nat) (key info : List Nat) (c : Nat) (hc : c ≠ 0) :
    ∀ (pt nonce : List Nat) (idx : Nat),
      decryptChunks A symId key info t
          (chunkList (encryptChunks A symId key info (chunkList pt c) nonce idx).1 (c + t))
          nonce idx
        = .ok (pt, (encryptChunks A symId key info (chunkList pt c) nonce idx).2) := by
  intro pt
  induction pt, c using chunkList.induct with
  | case1 pt c h =>
    intro nonce idx
    rcases h with h | h
    · rw [List.isEmpty_iff] at h
      subst h
      rw [chunkList_nil, encryptChunks_nil]
      rw [chunkList_nil, decryptChunks_nil]
    · omega
  | case2 pt c h ih =>
    intro nonce idx
    simp only [List.isEmpty_iff, not_or] at h
    obtain ⟨hne, hc0⟩ := h
    rw [chunkList_of_ne_nil pt c hne hc0, encryptChunks_cons]
    have hptpos : 0 < pt.length := List.length_pos.mpr hne
    obtain ⟨hnl, htk, hdr⟩ :=
      decrypt_piece A t hs symId key info nonce (pt.take c)
        ((A.enc symId key nonce info (pt.take c)).1 ++
          (A.enc symId key nonce info (pt.take c)).2) rfl
    have henclen := hs.enc_len symId key nonce info (pt.take c)
    have htaglen := hs.tag_len symId key nonce info (pt.take c)
    rcases Nat.lt_or_ge pt.length c with hlt | hge
    · -- the trailing (possibly short) chunk case: no further chunks follow
      have hdropnil : pt.drop c = [] := List.drop_eq_nil_of_le (by omega)
      have htakeall : pt.take c = pt := List.take_of_length_le (by omega)
      rw [hdropnil, chunkList_nil, encryptChunks_nil]
      rw [List.append_nil]
      have hplen : ((A.enc symId key nonce info (pt.take c)).1 ++
          (A.enc symId key nonce info (pt.take c)).2).length = pt.length + t := by
        rw [List.length_append, henclen, htaglen, htakeall]
      have hsingle : chunkList ((A.enc symId key nonce info (pt.take c)).1 ++
          (A.enc symId key nonce info (pt.take c)).2) (c + t) =
          [(A.enc symId key nonce info (pt.take c)).1 ++
            (A.enc symId key nonce info (pt.take c)).2] := by
        apply chunkList_single
        · intro hctnil
          rw [hctnil] at hplen
          simp at hplen
          omega
        · rw [hplen]
          omega
        · omega
      rw [hsingle, decryptChunks_cons, if_neg hnl, htk, hdr, hs.dec_enc]
      simp only [Option.elim_some, decryptChunks_nil, Except.bind]
      rw [htakeall]
      simp
    · -- a full leading chunk followed by the remaining chunks
      have htlen : (pt.take c).length = c := by
        rw [List.length_take]
        omega
      have hpiece : ((A.enc symId key nonce info (pt.take c)).1 ++
          (A.enc symId key nonce info (pt.take c)).2).length = c + t := by
        rw [List.length_append, henclen, htaglen, htlen]
      rw [chunkList_append_full _ _ _ hpiece (by omega)]
      rw [decryptChunks_cons, if_neg hnl, htk, hdr, hs.dec_enc]
      simp only [Option.elim_some]
      rw [ih hc0]
      simp only [Except.bind]
      rw [List.take_append_drop]


/-- Fuel-indexed structural version of `chunkList`, used to evaluate it on
concrete inputs (the well-founded recursion of `chunkList` does not reduce
definitionally). -/
def chunkListF : Nat → List α → Nat → List (List α)
  | _, [], _ => []
  | 0, _ :: _, _ => []
  | fuel + 1, a :: l, c =>
    if c = 0 then [] else (a :: l).take c :: chunkListF fuel ((a :: l).drop c) c

theorem chunkList_eq_chunkListF :
    ∀ (fuel : Nat) (l : List α) (c : Nat), l.length ≤ fuel →
      chunkList l c = chunkListF fuel l c := by
  intro fuel
  induction fuel with
  | zero =>
    intro l c h
    have hl : l = [] := List.eq_nil_of_length_eq_zero (Nat.le_zero.mp h)
    subst hl
    rw [chunkList_nil]
    rfl
  | succ f ih =>
    intro l c h
    cases l with
    | nil =>
      rw [chunkList_nil]
      rfl
    | cons a l' =>
      by_cases hc : c = 0
      · subst hc
        rw [chunkList_zero, chunkListF, if_pos rfl]
      · rw [chunkList_of_ne_nil _ _ (by simp) hc, chunkListF, if_neg hc]
        congr 1
        apply ih
        simp only [List.length_drop, List.length_cons] at *
        omega

theorem chunkList_eval (l : List α) (c : Nat) :
    chunkList l c = chunkListF l.length l c :=
  chunkList_eq_chunkListF l.length l c (Nat.le_refl _)

theorem ebind_ok (a : α) (f : α → Except ε β) : Except.bind (.ok a) f = f a := rfl

theorem ebind_error (e : ε) (f : α → Except ε β) :
    Except.bind (.error e : Except ε α) f = .error e := rfl

/-- Length of the output of the encryption chunk loop: the plaintext bytes of
all chunks plus one tag per chunk. -/
theorem encryptChunks_length (A : AeadAlg) (t : Nat) (hs : AeadSound A t)
    (symId : Nat) (key info : List Nat) :
    ∀ (chunks : List (List Nat)) (nonce : List Nat) (idx : Nat),
      (encryptChunks A symId key info chunks nonce idx).1.length =
        (chunks.map List.length).sum + chunks.length * t := by
  intro chunks
  induction chunks with
  | nil =>
    intro nonce idx
    rw [encryptChunks_nil]
    simp
  | cons ch rest ih =>
    intro nonce idx
    rw [encryptChunks_cons]
    simp only [List.length_append, hs.enc_len, hs.tag_len, ih, List.map_cons,
      List.sum_cons, List.length_cons]
    ring

/-- C1: SEIPDv2 round trip.  For every parameter tuple whose session key
length matches the symmetric algorithm's key size and whose AEAD algorithm
satisfies the AEAD contract (in particular, has a defined tag size `t`),
every packet produced by `encrypt_seipdv2` decrypts under the same session
key to exactly the original plaintext — for every plaintext, of any
length. -/
theorem seipdv2_decrypt_encrypt
    (hkdf : List Nat → List Nat → List Nat → Nat → List Nat)
    (sym : SymAlg) (A : AeadAlg) (t : Nat) (hs : AeadSound A t)
    (chunkSize : Nat) (salt sessionKey plaintext : List Nat) (pkt : SeipdV2)
    (henc : encrypt_seipdv2 hkdf sym A chunkSize salt sessionKey plaintext = .ok pkt) :
    SeipdV2.decrypt hkdf sessionKey pkt = .ok plaintext := by
  rw [encrypt_seipdv2] at henc
  by_cases hkey : sessionKey.length ≠ sym.keySize
  · rw [if_pos hkey] at henc
    cases henc
  · rw [if_neg hkey] at henc
    push_neg at hkey
    cases hexp : expand_chunk_size chunkSize with
    | none =>
      rw [hexp, Option.elim_none] at henc
      cases henc
    | some c =>
      have hc0 : c ≠ 0 := by
        have hexp' := hexp
        rw [expand_chunk_size] at hexp'
        split at hexp'
        · cases hexp'
          positivity
        · cases hexp'
      rw [hexp, Option.elim_some] at henc
      simp only at henc
      cases henc
      set setup := aead_setup hkdf sym A chunkSize salt sessionKey with hsetup
      set er := encryptChunks A sym.algId setup.2.1 setup.1 (chunkList plaintext c)
        setup.2.2 0 with her
      set ftag := (A.enc sym.algId setup.2.1 er.2 (setup.1 ++ be64 plaintext.length) []).2
        with hftag
      have hftlen : ftag.length = t := hs.tag_len _ _ _ _ _
      have hsplit : er.1.length = (er.1 ++ ftag).length - t := by
        rw [List.length_append, hftlen]
        omega
      rw [SeipdV2.decrypt]
      simp only
      rw [if_neg (by omega : ¬sessionKey.length ≠ sym.keySize), hexp, Option.elim_some]
      simp only [hs.tag_size, Option.elim_some]
      rw [if_neg (by rw [List.length_append, hftlen]; omega : ¬(er.1 ++ ftag).length < t)]
      rw [List.take_left' hsplit, List.drop_left' hsplit]
      rw [decryptChunks_encryptChunks A t hs sym.algId setup.2.1 setup.1 c hc0
        plaintext setup.2.2 0]
      rw [ebind_ok]
      simp only
      have hjoin :
          (A.enc sym.algId setup.2.1 er.2 (setup.1 ++ be64 plaintext.length) []).1 = [] :=
        List.eq_nil_of_length_eq_zero (by simp [hs.enc_len])
      have hfdec := hs.dec_enc sym.algId setup.2.1 er.2 (setup.1 ++ be64 plaintext.length) []
      rw [hjoin] at hfdec
      rw [hfdec, Option.elim_some]

/-- C9: output size of SEIPDv2 encryption.  With a tag-bearing AEAD algorithm
(tag size `t`) and an in-range chunk size parameter expanding to `c`, the
encrypted data field of the produced packet has exactly
`plaintext_len + (num_chunks + 1) * t` bytes, where
`num_chunks = ⌈plaintext_len / c⌉`; in particular an empty plaintext yields
exactly one final tag (`t` bytes) and no chunk data. -/
theorem encrypt_seipdv2_output_length
    (hkdf : List Nat → List Nat → List Nat → Nat → List Nat)
    (sym : SymAlg) (A : AeadAlg) (t : Nat) (hs : AeadSound A t)
    (chunkSize c : Nat) (hexp : expand_chunk_size chunkSize = some c)
    (salt sessionKey plaintext : List Nat) (pkt : SeipdV2)
    (henc : encrypt_seipdv2 hkdf sym A chunkSize salt sessionKey plaintext = .ok pkt) :
    pkt.data.length = plaintext.length + ((plaintext.length + c - 1) / c + 1) * t := by
  have hc0 : c ≠ 0 := by
    have hexp' := hexp
    rw [expand_chunk_size] at hexp'
    split at hexp'
    · cases hexp'
      positivity
    · cases hexp'
  rw [encrypt_seipdv2] at henc
  by_cases hkey : sessionKey.length ≠ sym.keySize
  · rw [if_pos hkey] at henc
    cases henc
  · rw [if_neg hkey] at henc
    rw [hexp, Option.elim_some] at henc
    simp only at henc
    cases henc
    simp only
    rw [List.length_append,
      encryptChunks_length A t hs sym.algId _ _ (chunkList plaintext c) _ 0,
      hs.tag_len]
    have hsum : ((chunkList plaintext c).map List.length).sum = plaintext.length := by
      rw [← List.length_flatten, chunkList_join plaintext c hc0]
    rw [hsum, chunkList_length plaintext c hc0]
    ring


/-- C2: the SEIPDv2 key schedule.  With `L = key_size + nonce_size - 8` and
`info = [18, 2, sym_alg, aead_alg, chunk_size]`, `aead_setup` (used
identically by encryption and decryption) returns exactly this `info`, a
message key equal to the first `key_size` bytes of the HKDF output of length
`L`, and an initial nonce made of the remaining `nonce_size - 8` HKDF bytes
(the nonce prefix) followed by the big-endian 8-byte encoding of chunk
index 0; each per-chunk nonce update rewrites exactly the final 8 bytes to
the incremented index, so the nonce of chunk `i` always ends in `be64 i` and
keeps length `nonce_size`. -/
theorem aead_setup_key_schedule
    (hkdf : List Nat → List Nat → List Nat → Nat → List Nat) (hh : HkdfSound hkdf)
    (sym : SymAlg) (A : AeadAlg) (chunkSize : Nat) (salt ikm : List Nat)
    (hn : 8 ≤ A.nonceSize) (hfit : sym.keySize + (A.nonceSize - 8) ≤ 42) :
    aead_setup hkdf sym A chunkSize salt ikm =
      ([18, 2, sym.algId, A.algId, chunkSize],
        (hkdf salt ikm [18, 2, sym.algId, A.algId, chunkSize]
            (sym.keySize + A.nonceSize - 8)).take sym.keySize,
        (hkdf salt ikm [18, 2, sym.algId, A.algId, chunkSize]
            (sym.keySize + A.nonceSize - 8)).drop sym.keySize ++ be64 0) ∧
    (∀ i : Nat,
      seipdNonceNext
          ((hkdf salt ikm [18, 2, sym.algId, A.algId, chunkSize]
              (sym.keySize + A.nonceSize - 8)).drop sym.keySize ++ be64 i) (i + 1) =
        (hkdf salt ikm [18, 2, sym.algId, A.algId, chunkSize]
            (sym.keySize + A.nonceSize - 8)).drop sym.keySize ++ be64 (i + 1)) ∧
    (∀ i : Nat,
      ((hkdf salt ikm [18, 2, sym.algId, A.algId, chunkSize]
            (sym.keySize + A.nonceSize - 8)).drop sym.keySize ++ be64 i).drop
          (A.nonceSize - 8) = be64 i ∧
      ((hkdf salt ikm [18, 2, sym.algId, A.algId, chunkSize]
            (sym.keySize + A.nonceSize - 8)).drop sym.keySize ++ be64 i).length =
        A.nonceSize) := by
  have hok : (hkdf salt ikm [18, 2, sym.algId, A.algId, chunkSize]
      (sym.keySize + A.nonceSize - 8)).length = sym.keySize + A.nonceSize - 8 :=
    hh.len_eq _ _ _ _
  have hdroplen : ((hkdf salt ikm [18, 2, sym.algId, A.algId, chunkSize]
      (sym.keySize + A.nonceSize - 8)).drop sym.keySize).length = A.nonceSize - 8 := by
    rw [List.length_drop, hok]
    omega
  refine ⟨?_, fun i => ?_, fun i => ⟨?_, ?_⟩⟩
  · have h42 : hkdf salt ikm [18, 2, sym.algId, A.algId, chunkSize]
        (sym.keySize + A.nonceSize - 8) =
        (hkdf salt ikm [18, 2, sym.algId, A.algId, chunkSize] 42).take
          (sym.keySize + A.nonceSize - 8) :=
      hh.take_eq _ _ _ _ _ (by omega)
    have hnn : A.nonceSize - (A.nonceSize - 8) = 8 := by omega
    have hbe : be64 0 = List.replicate 8 0 := by decide
    rw [aead_setup, hnn]
    refine congrArg₂ Prod.mk rfl (congrArg₂ Prod.mk ?_ ?_)
    · rw [h42, List.take_take, Nat.min_eq_left (by omega)]
    · rw [h42, List.drop_take, hbe]
      have h8 : sym.keySize + A.nonceSize - 8 - sym.keySize = A.nonceSize - 8 := by
        omega
      rw [h8]
  · rw [seipdNonceNext, List.length_append, hdroplen, be64_length]
    have h1 : A.nonceSize - 8 + 8 - 8 = A.nonceSize - 8 := by omega
    rw [h1, List.take_left' hdroplen]
  · exact List.drop_left' hdroplen
  · rw [List.length_append, hdroplen, be64_length]
    omega

/-- A miniature symmetric algorithm used to exercise the SEIPDv2 theorems on
concrete inputs. -/
def toySym : SymAlg := ⟨9, 3⟩

/-- A miniature AEAD instance satisfying the AEAD contract, used to exercise
the SEIPDv2 theorems on concrete inputs. -/
def toyAead : AeadAlg :=
  ⟨2, 12, some 4, fun _ _ _ _ p => (p, List.replicate 4 0), fun _ _ _ _ _ ct => some ct⟩

theorem toyAead_sound : AeadSound toyAead 4 :=
  ⟨rfl, fun _ _ _ _ _ => rfl, fun _ _ _ _ _ => by simp [toyAead],
    fun _ _ _ _ _ => rfl⟩

/-- A miniature key-derivation function satisfying the HKDF contract. -/
def toyHkdf : List Nat → List Nat → List Nat → Nat → List Nat :=
  fun _ _ _ L => List.replicate L 7

theorem toyHkdf_sound : HkdfSound toyHkdf :=
  ⟨fun _ _ _ _ => by simp [toyHkdf],
    fun _ _ _ L₁ L₂ h => by simp [toyHkdf, List.take_replicate, Nat.min_eq_left h]⟩

/-- C1 witness: the round-trip theorem applied to a concrete encryption under
the toy primitives. -/
theorem seipdv2_decrypt_encrypt_witness :
    SeipdV2.decrypt toyHkdf [1, 2, 3]
        (SeipdV2.mk toySym toyAead 0 (List.replicate 32 1)
          [10, 20, 30, 0, 0, 0, 0, 0, 0, 0, 0]) = .ok [10, 20, 30] :=
  seipdv2_decrypt_encrypt toyHkdf toySym toyAead 4 toyAead_sound 0
    (List.replicate 32 1) [1, 2, 3] [10, 20, 30] _
    (by rw [encrypt_seipdv2]; norm_num [chunkList_eval, expand_chunk_size]; rfl)

/-- C9 witness: the output-size theorem applied to a concrete empty-plaintext
encryption (one final tag, no chunk data). -/
theorem encrypt_seipdv2_output_length_witness :
    (SeipdV2.mk toySym toyAead 0 (List.replicate 32 1) [0, 0, 0, 0]).data.length =
      (List.nil : List Nat).length +
        (((List.nil : List Nat).length + 64 - 1) / 64 + 1) * 4 :=
  encrypt_seipdv2_output_length toyHkdf toySym toyAead 4 toyAead_sound 0 64
    (by decide) (List.replicate 32 1) [1, 2, 3] [] _
    (by rw [encrypt_seipdv2]; norm_num [chunkList_eval, expand_chunk_size]; rfl)

/-- C2 witness: the key-schedule theorem applied to the toy primitives,
including the nonce update at chunk index 5. -/
theorem aead_setup_key_schedule_witness :
    aead_setup toyHkdf toySym toyAead 5 [3] [4] =
      ([18, 2, toySym.algId, toyAead.algId, 5],
        (toyHkdf [3] [4] [18, 2, toySym.algId, toyAead.algId, 5]
            (toySym.keySize + toyAead.nonceSize - 8)).take toySym.keySize,
        (toyHkdf [3] [4] [18, 2, toySym.algId, toyAead.algId, 5]
            (toySym.keySize + toyAead.nonceSize - 8)).drop toySym.keySize ++ be64 0) ∧
    seipdNonceNext
        ((toyHkdf [3] [4] [18, 2, toySym.algId, toyAead.algId, 5]
            (toySym.keySize + toyAead.nonceSize - 8)).drop toySym.keySize ++ be64 5)
        6 =
      (toyHkdf [3] [4] [18, 2, toySym.algId, toyAead.algId, 5]
          (toySym.keySize + toyAead.nonceSize - 8)).drop toySym.keySize ++ be64 6 :=
  ⟨(aead_setup_key_schedule toyHkdf toyHkdf_sound toySym toyAead 5 [3] [4]
      (by decide) (by decide)).1,
    (aead_setup_key_schedule toyHkdf toyHkdf_sound toySym toyAead 5 [3] [4]
      (by decide) (by decide)).2.1 5⟩

/-! ## Hash primitives for key fingerprints

MD5 (RFC 1321), SHA-1 (RFC 3174) and SHA-256 (FIPS 180-4) are out-of-scope
cryptographic collaborators of the core (spec §1).  Modelled from the spec:
key packets compute V2/V3 fingerprints with MD5, V4 with SHA-1 and V6 with
SHA-256 (§4.5); the functions below implement those algorithms from their
defining documents, over byte lists, with 32-bit words as `Nat` reduced mod
`2^32`. -/

def not32 (x : Nat) : Nat := x ^^^ 0xffffffff

def rotl32 (n x : Nat) : Nat := ((x <<< n) % 2 ^ 32) ||| (x >>> (32 - n))

def rotr32 (n x : Nat) : Nat := (x >>> n) ||| ((x <<< (32 - n)) % 2 ^ 32)

/-- Big-endian 32-bit words of a byte list (in groups of four bytes). -/
def words32 : List Nat → List Nat
  | a :: b :: c :: d :: rest => (((a * 256 + b) * 256 + c) * 256 + d) :: words32 rest
  | _ => []

/-- Little-endian 32-bit words of a byte list. -/
def words32le : List Nat → List Nat
  | a :: b :: c :: d :: rest => (((d * 256 + c) * 256 + b) * 256 + a) :: words32le rest
  | _ => []

def le32 (n : Nat) : List Nat := [byteAt n 0, byteAt n 1, byteAt n 2, byteAt n 3]

def le64 (n : Nat) : List Nat :=
  [byteAt n 0, byteAt n 1, byteAt n 2, byteAt n 3,
   byteAt n 4, byteAt n 5, byteAt n 6, byteAt n 7]

/-- Structural 64-byte block split (uses the fuel-indexed chunker, which is
given enough fuel). -/
def blocks64 (l : List Nat) : List (List Nat) := chunkListF l.length l 64

/-- Merkle-Damgård padding shared by MD5, SHA-1 and SHA-256: a `0x80` byte,
zeros up to 56 mod 64, then the 8-byte bit count (little-endian for MD5,
big-endian for the SHA family, passed in as `lenBytes`). -/
def mdPad (lenBytes : List Nat) (msg : List Nat) : List Nat :=
  msg ++ 0x80 :: List.replicate ((64 - (msg.length + 9) % 64) % 64) 0 ++ lenBytes

def iterateN (f : α → α) : Nat → α → α
  | 0, x => x
  | n + 1, x => iterateN f n (f x)

def md5K : List Nat :=
  [3614090360, 3905402710, 606105819, 3250441966, 4118548399,
   1200080426, 2821735955, 4249261313, 1770035416, 2336552879,
   4294925233, 2304563134, 1804603682, 4254626195, 2792965006,
   1236535329, 4129170786, 3225465664, 643717713, 3921069994,
   3593408605, 38016083, 3634488961, 3889429448, 568446438,
   3275163606, 4107603335, 1163531501, 2850285829, 4243563512,
   1735328473, 2368359562, 4294588738, 2272392833, 1839030562,
   4259657740, 2763975236, 1272893353, 4139469664, 3200236656,
   681279174, 3936430074, 3572445317, 76029189, 3654602809,
   3873151461, 530742520, 3299628645, 4096336452, 1126891415,
   2878612391, 4237533241, 1700485571, 2399980690, 4293915773,
   2240044497, 1873313359, 4264355552, 2734768916, 1309151649,
   4149444226, 3174756917, 718787259, 3951481745]

def md5S : List Nat :=
  [7, 12, 17, 22, 7, 12, 17, 22, 7, 12, 17, 22, 7, 12, 17, 22,
   5, 9, 14, 20, 5, 9, 14, 20, 5, 9, 14, 20, 5, 9, 14, 20,
   4, 11, 16, 23, 4, 11, 16, 23, 4, 11, 16, 23, 4, 11, 16, 23,
   6, 10, 15, 21, 6, 10, 15, 21, 6, 10, 15, 21, 6, 10, 15, 21]

def md5F (i b c d : Nat) : Nat :=
  if i < 16 then (b &&& c) ||| (not32 b &&& d)
  else if i < 32 then (d &&& b) ||| (not32 d &&& c)
  else if i < 48 then b ^^^ c ^^^ d
  else c ^^^ (b ||| not32 d)

def md5G (i : Nat) : Nat :=
  if i < 16 then i
  else if i < 32 then (5 * i + 1) % 16
  else if i < 48 then (3 * i + 5) % 16
  else 7 * i % 16

def md5Round (M : List Nat) (st : Nat × Nat × Nat × Nat) (i : Nat) :
    Nat × Nat × Nat × Nat :=
  let f := (md5F i st.2.1 st.2.2.1 st.2.2.2 + st.1 + md5K.getD i 0 +
    M.getD (md5G i) 0) % 2 ^ 32
  (st.2.2.2, (st.2.1 + rotl32 (md5S.getD i 0) f) % 2 ^ 32, st.2.1, st.2.2.1)

def md5Compress (st : Nat × Nat × Nat × Nat) (block : List Nat) :
    Nat × Nat × Nat × Nat :=
  let r := (List.range 64).foldl (md5Round (words32le block)) st
  ((st.1 + r.1) % 2 ^ 32, (st.2.1 + r.2.1) % 2 ^ 32,
   (st.2.2.1 + r.2.2.1) % 2 ^ 32, (st.2.2.2 + r.2.2.2) % 2 ^ 32)

/-- Modelled from the spec: MD5 (RFC 1321), used for V2/V3 fingerprints. -/
def md5 (msg : List Nat) : List Nat :=
  let st := (blocks64 (mdPad (le64 (8 * msg.length)) msg)).foldl md5Compress
    (1732584193, 4023233417, 2562383102, 271733878)
  le32 st.1 ++ le32 st.2.1 ++ le32 st.2.2.1 ++ le32 st.2.2.2

def sha1F (i b c d : Nat) : Nat :=
  if i < 20 then (b &&& c) ||| (not32 b &&& d)
  else if i < 40 then b ^^^ c ^^^ d
  else if i < 60 then (b &&& c) ||| (b &&& d) ||| (c &&& d)
  else b ^^^ c ^^^ d

def sha1K (i : Nat) : Nat :=
  if i < 20 then 1518500249
  else if i < 40 then 1859775393
  else if i < 60 then 2400959708
  else 3395469782

def sha1ExtendStep (ws : List Nat) : List Nat :=
  ws ++ [rotl32 1 (ws.getD (ws.length - 3) 0 ^^^ ws.getD (ws.length - 8) 0 ^^^
    ws.getD (ws.length - 14) 0 ^^^ ws.getD (ws.length - 16) 0)]

def sha1Round (W : List Nat) (st : Nat × Nat × Nat × Nat × Nat) (i : Nat) :
    Nat × Nat × Nat × Nat × Nat :=
  ((rotl32 5 st.1 + sha1F i st.2.1 st.2.2.1 st.2.2.2.1 + st.2.2.2.2 + sha1K i +
      W.getD i 0) % 2 ^ 32,
    st.1, rotl32 30 st.2.1, st.2.2.1, st.2.2.2.1)

def sha1Compress (st : Nat × Nat × Nat × Nat × Nat) (block : List Nat) :
    Nat × Nat × Nat × Nat × Nat :=
  let r := (List.range 80).foldl (sha1Round (iterateN sha1ExtendStep 64 (words32 block))) st
  ((st.1 + r.1) % 2 ^ 32, (st.2.1 + r.2.1) % 2 ^ 32, (st.2.2.1 + r.2.2.1) % 2 ^ 32,
   (st.2.2.2.1 + r.2.2.2.1) % 2 ^ 32, (st.2.2.2.2 + r.2.2.2.2) % 2 ^ 32)

/-- Modelled from the spec: SHA-1 (RFC 3174), used for V4 fingerprints. -/
def sha1 (msg : List Nat) : List Nat :=
  let st := (blocks64 (mdPad (be64 (8 * msg.length)) msg)).foldl sha1Compress
    (1732584193, 4023233417, 2562383102, 271733878, 3285377520)
  be32 st.1 ++ be32 st.2.1 ++ be32 st.2.2.1 ++ be32 st.2.2.2.1 ++ be32 st.2.2.2.2

/-- The eight-word chaining state of SHA-256. -/
structure H8 where
  a : Nat
  b : Nat
  c : Nat
  d : Nat
  e : Nat
  f : Nat
  g : Nat
  h : Nat

def sha256K : List Nat :=
  [1116352408, 1899447441, 3049323471, 3921009573, 961987163,
   1508970993, 2453635748, 2870763221, 3624381080, 310598401,
   607225278, 1426881987, 1925078388, 2162078206, 2614888103,
   3248222580, 3835390401, 4022224774, 264347078, 604807628,
   770255983, 1249150122, 1555081692, 1996064986, 2554220882,
   2821834349, 2952996808, 3210313671, 3336571891, 3584528711,
   113926993, 338241895, 666307205, 773529912, 1294757372,
   1396182291, 1695183700, 1986661051, 2177026350, 2456956037,
   2730485921, 2820302411, 3259730800, 3345764771, 3516065817,
   3600352804, 4094571909, 275423344, 430227734, 506948616,
   659060556, 883997877, 958139571, 1322822218, 1537002063,
   1747873779, 1955562222, 2024104815, 2227730452, 2361852424,
   2428436474, 2756734187, 3204031479, 3329325298]

def sha256ExtendStep (ws : List Nat) : List Nat :=
  let x15 := ws.getD (ws.length - 15) 0
  let x2 := ws.getD (ws.length - 2) 0
  let s0 := rotr32 7 x15 ^^^ rotr32 18 x15 ^^^ (x15 >>> 3)
  let s1 := rotr32 17 x2 ^^^ rotr32 19 x2 ^^^ (x2 >>> 10)
  ws ++ [(ws.getD (ws.length - 16) 0 + s0 + ws.getD (ws.length - 7) 0 + s1) % 2 ^ 32]

def sha256Round (W : List Nat) (st : H8) (i : Nat) : H8 :=
  let S1 := rotr32 6 st.e ^^^ rotr32 11 st.e ^^^ rotr32 25 st.e
  let ch := (st.e &&& st.f) ^^^ (not32 st.e &&& st.g)
  let t1 := (st.h + S1 + ch + sha256K.getD i 0 + W.getD i 0) % 2 ^ 32
  let S0 := rotr32 2 st.a ^^^ rotr32 13 st.a ^^^ rotr32 22 st.a
  let mj := (st.a &&& st.b) ^^^ (st.a &&& st.c) ^^^ (st.b &&& st.c)
  let t2 := (S0 + mj) % 2 ^ 32
  ⟨(t1 + t2) % 2 ^ 32, st.a, st.b, st.c, (st.d + t1) % 2 ^ 32, st.e, st.f, st.g⟩

def sha256Compress (st : H8) (block : List Nat) : H8 :=
  let r := (List.range 64).foldl
    (sha256Round (iterateN sha256ExtendStep 48 (words32 block))) st
  ⟨(st.a + r.a) % 2 ^ 32, (st.b + r.b) % 2 ^ 32, (st.c + r.c) % 2 ^ 32,
   (st.d + r.d) % 2 ^ 32, (st.e + r.e) % 2 ^ 32, (st.f + r.f) % 2 ^ 32,
   (st.g + r.g) % 2 ^ 32, (st.h + r.h) % 2 ^ 32⟩

/-- Modelled from the spec: SHA-256 (FIPS 180-4), used for V6 fingerprints. -/
def sha256 (msg : List Nat) : List Nat :=
  let st := (blocks64 (mdPad (be64 (8 * msg.length)) msg)).foldl sha256Compress
    ⟨1779033703, 3144134277, 1013904242, 2773480762,
     1359893119, 2600822924, 528734635, 1541459225⟩
  be32 st.a ++ be32 st.b ++ be32 st.c ++ be32 st.d ++
    be32 st.e ++ be32 st.f ++ be32 st.g ++ be32 st.h

theorem md5_length (msg : List Nat) : (md5 msg).length = 16 := by
  simp [md5, le32]

theorem sha1_length (msg : List Nat) : (sha1 msg).length = 20 := by
  simp [sha1, be32]

theorem sha256_length (msg : List Nat) : (sha256 msg).length = 32 := by
  simp [sha256, be32]

/-! ## Key packets and identity derivation (`src/packet/key/public.rs`) -/

/-- Key versions (`KeyVersion` in the crate's types; V5 is recognized only to
be rejected). -/
inductive KeyVer
  | v2
  | v3
  | v4
  | v5
  | v6
  | other (v : Nat)
deriving DecidableEq, Repr

/-- Public-key algorithms with their RFC 9580 one-octet identifiers. -/
inductive PubAlg
  | rsa
  | rsaEncrypt
  | rsaSign
  | elgamal
  | dsa
  | ecdh
  | ecdsa
  | eddsaLegacy
  | x25519
  | x448
  | ed25519
  | ed448
  | unknownAlg (id : Nat)
deriving DecidableEq, Repr

def PubAlg.toId : PubAlg → Nat
  | .rsa => 1
  | .rsaEncrypt => 2
  | .rsaSign => 3
  | .elgamal => 16
  | .dsa => 17
  | .ecdh => 18
  | .ecdsa => 19
  | .eddsaLegacy => 22
  | .x25519 => 25
  | .x448 => 26
  | .ed25519 => 27
  | .ed448 => 28
  | .unknownAlg id => id

/-- ECDH public parameters.  The source distinguishes Curve25519, the NIST
and Brainpool curves, and an Unsupported variant; the legality check in
`PubKeyInner::new` matches only the Curve25519 variant, so the embedding
keeps Curve25519 apart and merges the others, each carrying its serialized
byte form. -/
inductive EcdhPublicParams
  | curve25519 (bytes : List Nat)
  | otherCurve (curveId : Nat) (bytes : List Nat)
  | known (curveId : Nat) (p : List Nat) (hash symW : Nat)
  | unsupportedCurve (curveId : Nat)
deriving DecidableEq, Repr

/-- Public-key parameters.  RSA keys carry the magnitude bytes of the modulus
and exponent (normalized, no leading zero byte); the algorithm families whose
inner structure no claim depends on carry their serialized byte form. -/
inductive PublicParams
  | rsa (n e : List Nat)
  | dsa (p q g y : List Nat)
  | elgamal (p g y : List Nat)
  | ecdsa (curveId : Nat) (p : List Nat)
  | eddsaLegacy (curveId : Nat) (q : List Nat)
  | ecdh (p : EcdhPublicParams)
  | ed25519 (key : List Nat)
  | x25519 (key : List Nat)
  | unknownParams (data : List Nat)
  | other (data : List Nat)
deriving DecidableEq, Repr

def PublicParams.isEcdhCurve25519 : PublicParams → Bool
  | .ecdh (.curve25519 _) => true
  | _ => false

def PublicParams.isEddsaLegacy : PublicParams → Bool
  | .eddsaLegacy _ _ => true
  | _ => false

/-- Bit length of a byte (leading-zero-trimmed), for the MPI header. -/
def bitLen8 (b : Nat) : Nat :=
  if 128 ≤ b then 8
  else if 64 ≤ b then 7
  else if 32 ≤ b then 6
  else if 16 ≤ b then 5
  else if 8 ≤ b then 4
  else if 4 ≤ b then 3
  else if 2 ≤ b then 2
  else if 1 ≤ b then 1
  else 0

/-- MPI wire encoding: 2-byte big-endian bit count followed by the magnitude
bytes (glossary: "2-byte big-endian bit length + big-endian magnitude"). -/
def mpiEnc (m : List Nat) : List Nat :=
  be16 (8 * (m.length - 1) + bitLen8 (m.headD 0)) ++ m

/-- Known ECC curves and their OIDs (`ECCCurve`/`ecc_curve_from_oid`):
1 = P-256, 2 = P-384, 3 = P-521, 4 = Curve25519, 5 = Ed25519,
6 = secp256k1, 7/8/9 = Brainpool 256/384/512. -/
def curveOids : List (Nat × List Nat) :=
  [(1, [0x2A, 0x86, 0x48, 0xCE, 0x3D, 0x03, 0x01, 0x07]),
   (2, [0x2B, 0x81, 0x04, 0x00, 0x22]),
   (3, [0x2B, 0x81, 0x04, 0x00, 0x23]),
   (4, [0x2B, 0x06, 0x01, 0x04, 0x01, 0x97, 0x55, 0x01, 0x05, 0x01]),
   (5, [0x2B, 0x06, 0x01, 0x04, 0x01, 0xDA, 0x47, 0x0F, 0x01]),
   (6, [0x2B, 0x81, 0x04, 0x00, 0x0A]),
   (7, [0x2B, 0x24, 0x03, 0x03, 0x02, 0x08, 0x01, 0x01, 0x07]),
   (8, [0x2B, 0x24, 0x03, 0x03, 0x02, 0x08, 0x01, 0x01, 0x0B]),
   (9, [0x2B, 0x24, 0x03, 0x03, 0x02, 0x08, 0x01, 0x01, 0x0D])]

def ecc_curve_from_oid (oid : List Nat) : Option Nat :=
  (curveOids.find? fun p => p.2 == oid).map fun p => p.1

def oidOf (curveId : Nat) : List Nat :=
  ((curveOids.find? fun p => p.1 == curveId).map fun p => p.2).getD []

/-- OID wire form: one length octet then the OID bytes. -/
def oidEnc (curveId : Nat) : List Nat := (oidOf curveId).length :: oidOf curveId

/-- Serialized form of the public parameters (`PublicParams::to_writer`):
RSA/DSA/Elgamal write their MPIs in order, the ECC families write the
length-prefixed OID and their fields, and the merged/unknown variants carry
their serialized bytes directly. -/
def serializeParams : PublicParams → List Nat
  | .rsa n e => mpiEnc n ++ mpiEnc e
  | .dsa p q g y => mpiEnc p ++ mpiEnc q ++ mpiEnc g ++ mpiEnc y
  | .elgamal p g y => mpiEnc p ++ mpiEnc g ++ mpiEnc y
  | .ecdsa cid p => oidEnc cid ++ mpiEnc p
  | .eddsaLegacy cid q => oidEnc cid ++ mpiEnc q
  | .ecdh (.curve25519 o) => o
  | .ecdh (.otherCurve _ o) => o
  | .ecdh (.known cid p h s) => oidEnc cid ++ mpiEnc p ++ [3, 1, h, s]
  | .ecdh (.unsupportedCurve cid) => oidEnc cid
  | .ed25519 k => k
  | .x25519 k => k
  | .unknownParams d => d
  | .other d => d

/-- The inner public key material (`PubKeyInner`). -/
structure PubKeyInner where
  version : KeyVer
  algorithm : PubAlg
  createdAt : Nat
  expiration : Option Nat
  publicParams : PublicParams
deriving DecidableEq, Repr

/-- Construction errors of `PubKeyInner::new`.  The source raises
`Error::Unsupported` for the V2/V3 non-RSA combination and `Error::Message`
(via `bail!`) for legacy parameters outside V4; all three are of the spec's
InvalidKey kind (a version/algorithm combination forbidden by RFC 9580). -/
inductive KeyErr
  | unsupportedVersionAlgo
  | illegalCurve25519Legacy
  | illegalEddsaLegacy
deriving DecidableEq, Repr

/-- Embedding of `PubKeyInner::new` (lines 235-343; the `draft-pqc` blocks
are feature-gated out of this build).  The guards run in source order. -/
def PubKeyInner.new (version : KeyVer) (algorithm : PubAlg) (createdAt : Nat)
    (expiration : Option Nat) (publicParams : PublicParams) :
    Except KeyErr PubKeyInner :=
  if (version = .v2 ∨ version = .v3) ∧
      ¬(algorithm = .rsa ∨ algorithm = .rsaEncrypt ∨ algorithm = .rsaSign) then
    .error .unsupportedVersionAlgo
  else if version ≠ .v4 ∧ publicParams.isEcdhCurve25519 then
    .error .illegalCurve25519Legacy
  else if version ≠ .v4 ∧ publicParams.isEddsaLegacy then
    .error .illegalEddsaLegacy
  else
    .ok ⟨version, algorithm, createdAt, expiration, publicParams⟩

/-- The V4 imprint preimage (`PubKeyInner::imprint`, `KeyVersion::V4` arm):
the hasher is fed `0x99`, the 2-byte packet length, and the packet
`[4 | created(4, big-endian u32 cast) | algorithm | params]` (the code
builds `[4,0,0,0,0]`, overwrites bytes 1..5 with the timestamp, pushes the
algorithm octet and appends the serialized parameters). -/
def imprintV4Bytes (k : PubKeyInner) : List Nat :=
  let packet := ([4, 0, 0, 0, 0].take 1 ++ be32 k.createdAt ++ [4, 0, 0, 0, 0].drop 5)
    ++ [k.algorithm.toId] ++ serializeParams k.publicParams
  0x99 :: (be16 packet.length ++ packet)

/-- The V6 imprint preimage (`PubKeyInner::imprint`, `KeyVersion::V6` arm):
`0x9B`, the 4-byte total length `1+4+1+4+len` (u32 wrapping), the version
octet 6, the timestamp, the algorithm octet, the 4-byte parameter length and
the serialized parameters. -/
def imprintV6Bytes (k : PubKeyInner) : List Nat :=
  0x9B :: (be32 (1 + 4 + 1 + 4 + (serializeParams k.publicParams).length) ++
    [6] ++ be32 k.createdAt ++ [k.algorithm.toId] ++
    be32 (serializeParams k.publicParams).length ++ serializeParams k.publicParams)

/-- Version-tagged fingerprints (`Fingerprint`). -/
inductive Fingerprint
  | v2 (bytes : List Nat)
  | v3 (bytes : List Nat)
  | v4 (bytes : List Nat)
  | v6 (bytes : List Nat)
deriving DecidableEq, Repr

def Fingerprint.bytes : Fingerprint → List Nat
  | .v2 b => b
  | .v3 b => b
  | .v4 b => b
  | .v6 b => b

/-- Embedding of `PubKeyInner::fingerprint` (lines 722-752): V2/V3 take the
MD5 of the serialized parameters alone, V4 the SHA-1 of the tagged V4
imprint preimage, V6 the SHA-256 of the length-prefixed V6 preimage; V5 and
unknown versions panic (`none` here). -/
def PubKeyInner.fingerprint (k : PubKeyInner) : Option Fingerprint :=
  match k.version with
  | .v2 => some (.v2 (md5 (serializeParams k.publicParams)))
  | .v3 => some (.v3 (md5 (serializeParams k.publicParams)))
  | .v4 => some (.v4 (sha1 (imprintV4Bytes k)))
  | .v6 => some (.v6 (sha256 (imprintV6Bytes k)))
  | _ => none

/-- Embedding of `PubKeyInner::key_id` (lines 754-781): V2/V3 RSA keys use
the final 8 bytes of the modulus MPI; V4 the final 8 fingerprint bytes; V6
the first 8 fingerprint bytes; everything else panics (`none` here). -/
def PubKeyInner.key_id (k : PubKeyInner) : Option (List Nat) :=
  match k.version with
  | .v2 | .v3 =>
    match k.publicParams with
    | .rsa n _ => some (n.drop (n.length - 8))
    | _ => none
  | .v4 => k.fingerprint.map fun f => f.bytes.drop (f.bytes.length - 8)
  | .v6 => k.fingerprint.map fun f => f.bytes.take 8
  | _ => none

theorem imprintV4Bytes_eq (k : PubKeyInner) :
    imprintV4Bytes k =
      [0x99] ++ be16 (6 + (serializeParams k.publicParams).length) ++ [4] ++
        be32 k.createdAt ++ [k.algorithm.toId] ++ serializeParams k.publicParams := by
  rw [imprintV4Bytes]
  have hlen : (([4, 0, 0, 0, 0].take 1 ++ be32 k.createdAt ++ [4, 0, 0, 0, 0].drop 5)
      ++ [k.algorithm.toId] ++ serializeParams k.publicParams).length =
      6 + (serializeParams k.publicParams).length := by
    simp [be32]
    omega
  rw [hlen]
  simp [be32]

/-- C3: fingerprint computation.  For a V4 key, the fingerprint is the SHA-1
of `[0x99, len_u16, ver=4, created_u32, algo, params]` with
`len = 1+4+1+len(params)`; for a V6 key it is the SHA-256 of
`[0x9B, total_len_u32, ver=6, created_u32, algo, params_len_u32, params]`
with `total_len = 1+4+1+4+len(params)`; the resulting fingerprints have 20
and 32 bytes respectively. -/
theorem fingerprint_structure (k : PubKeyInner) :
    (k.version = .v4 →
      k.fingerprint = some (.v4 (sha1 ([0x99] ++
        be16 (6 + (serializeParams k.publicParams).length) ++ [4] ++
        be32 k.createdAt ++ [k.algorithm.toId] ++ serializeParams k.publicParams))) ∧
      (∀ fp, k.fingerprint = some fp → fp.bytes.length = 20)) ∧
    (k.version = .v6 →
      k.fingerprint = some (.v6 (sha256 ([0x9B] ++
        be32 (1 + 4 + 1 + 4 + (serializeParams k.publicParams).length) ++ [6] ++
        be32 k.createdAt ++ [k.algorithm.toId] ++
        be32 (serializeParams k.publicParams).length ++
        serializeParams k.publicParams))) ∧
      (∀ fp, k.fingerprint = some fp → fp.bytes.length = 32)) := by
  constructor
  · intro hv4
    constructor
    · simp only [PubKeyInner.fingerprint, hv4, imprintV4Bytes_eq]
    · intro fp hfp
      simp only [PubKeyInner.fingerprint, hv4, Option.some.injEq] at hfp
      subst hfp
      simp [Fingerprint.bytes, sha1_length]
  · intro hv6
    constructor
    · simp only [PubKeyInner.fingerprint, hv6, imprintV6Bytes]
      simp
    · intro fp hfp
      simp only [PubKeyInner.fingerprint, hv6, Option.some.injEq] at hfp
      subst hfp
      simp [Fingerprint.bytes, sha256_length]

/-- C3 witness: the fingerprint-structure theorem applied to concrete V4 and
V6 keys. -/
theorem fingerprint_structure_witness :
    (PubKeyInner.mk .v4 .ed25519 5 none (.other [1, 2])).fingerprint =
      some (.v4 (sha1 ([0x99] ++ be16 (6 + ([1, 2] : List Nat).length) ++ [4] ++
        be32 5 ++ [PubAlg.ed25519.toId] ++ [1, 2]))) ∧
    (PubKeyInner.mk .v6 .ed25519 5 none (.other [1, 2])).fingerprint =
      some (.v6 (sha256 ([0x9B] ++ be32 (1 + 4 + 1 + 4 + ([1, 2] : List Nat).length) ++
        [6] ++ be32 5 ++ [PubAlg.ed25519.toId] ++ be32 ([1, 2] : List Nat).length ++
        [1, 2]))) ∧
    (Fingerprint.v4 (sha1 ([0x99] ++ be16 (6 + ([1, 2] : List Nat).length) ++ [4] ++
      be32 5 ++ [PubAlg.ed25519.toId] ++ [1, 2]))).bytes.length = 20 :=
  ⟨((fingerprint_structure (PubKeyInner.mk .v4 .ed25519 5 none (.other [1, 2]))).1 rfl).1,
    ((fingerprint_structure (PubKeyInner.mk .v6 .ed25519 5 none (.other [1, 2]))).2 rfl).1,
    ((fingerprint_structure (PubKeyInner.mk .v4 .ed25519 5 none (.other [1, 2]))).1 rfl).2 _
      (((fingerprint_structure (PubKeyInner.mk .v4 .ed25519 5 none (.other [1, 2]))).1
        rfl).1)⟩

set_option maxRecDepth 4000 in
/-- C4 counterexample: for a V2/V3 (RSA) key the key id is the trailing 8
bytes of the modulus, which is not a contiguous substring of the 16-byte MD5
fingerprint at any offset, so "key_id(K) is the defined substring of
fingerprint(K)" fails for every-legal-key quantification. -/
theorem key_id_v3_not_in_fingerprint :
    PubKeyInner.key_id ⟨.v3, .rsa, 0, some 0,
        .rsa [195, 2, 3, 4, 5, 6, 7, 8, 9, 10, 11, 12, 13, 14, 15, 16] [1, 0, 1]⟩ =
      some [9, 10, 11, 12, 13, 14, 15, 16] ∧
    PubKeyInner.fingerprint ⟨.v3, .rsa, 0, some 0,
        .rsa [195, 2, 3, 4, 5, 6, 7, 8, 9, 10, 11, 12, 13, 14, 15, 16] [1, 0, 1]⟩ =
      some (.v3 [12, 97, 75, 19, 254, 186, 78, 37, 37, 48, 105, 85, 232, 23, 14, 140]) ∧
    (((List.range 9).all fun j =>
      decide ((([12, 97, 75, 19, 254, 186, 78, 37, 37, 48, 105, 85, 232, 23, 14,
        140] : List Nat).drop j).take 8 ≠ [9, 10, 11, 12, 13, 14, 15, 16])) = true) :=
  ⟨rfl, rfl, rfl⟩

/-- C4 (amended): key ids are derived per version — V2/V3 RSA keys take the
final 8 bytes of the modulus (not of the fingerprint), V4 keys the final 8
bytes of the fingerprint (its trailing substring; the fingerprint has 20
bytes), V6 keys the first 8 bytes of the fingerprint (32 bytes). -/
theorem key_id_rules (k : PubKeyInner) :
    ((k.version = .v2 ∨ k.version = .v3) → ∀ n e, k.publicParams = .rsa n e →
      k.key_id = some (n.drop (n.length - 8))) ∧
    (k.version = .v4 → ∀ fp, k.fingerprint = some fp →
      k.key_id = some (fp.bytes.drop (fp.bytes.length - 8)) ∧
      fp.bytes.take (fp.bytes.length - 8) ++ fp.bytes.drop (fp.bytes.length - 8) =
        fp.bytes ∧
      fp.bytes.length = 20) ∧
    (k.version = .v6 → ∀ fp, k.fingerprint = some fp →
      k.key_id = some (fp.bytes.take 8) ∧ fp.bytes.length = 32) := by
  refine ⟨fun hv n e hp => ?_, fun hv fp hfp => ⟨?_, List.take_append_drop _ _, ?_⟩,
    fun hv fp hfp => ⟨?_, ?_⟩⟩
  · rcases hv with hv | hv <;> simp [PubKeyInner.key_id, hv, hp]
  · simp [PubKeyInner.key_id, hv, hfp]
  · simp only [PubKeyInner.fingerprint, hv, Option.some.injEq] at hfp
    subst hfp
    simp [Fingerprint.bytes, sha1_length]
  · simp [PubKeyInner.key_id, hv, hfp]
  · simp only [PubKeyInner.fingerprint, hv, Option.some.injEq] at hfp
    subst hfp
    simp [Fingerprint.bytes, sha256_length]

/-- C4 witness: the per-version key id rules applied to the concrete RSA V3
key of the counterexample and to a concrete V6 key. -/
theorem key_id_rules_witness :
    PubKeyInner.key_id ⟨.v3, .rsa, 0, some 0,
        .rsa [195, 2, 3, 4, 5, 6, 7, 8, 9, 10, 11, 12, 13, 14, 15, 16] [1, 0, 1]⟩ =
      some (([195, 2, 3, 4, 5, 6, 7, 8, 9, 10, 11, 12, 13, 14, 15, 16] : List Nat).drop
        (([195, 2, 3, 4, 5, 6, 7, 8, 9, 10, 11, 12, 13, 14, 15, 16] : List Nat).length -
          8)) ∧
    (PubKeyInner.mk .v6 .ed25519 5 none (.other [1, 2])).key_id =
      some ((Fingerprint.v6 (sha256 (imprintV6Bytes
        (PubKeyInner.mk .v6 .ed25519 5 none (.other [1, 2]))))).bytes.take 8) :=
  ⟨(key_id_rules ⟨.v3, .rsa, 0, some 0,
      .rsa [195, 2, 3, 4, 5, 6, 7, 8, 9, 10, 11, 12, 13, 14, 15, 16] [1, 0, 1]⟩).1
      (Or.inr rfl) _ _ rfl,
    ((key_id_rules (PubKeyInner.mk .v6 .ed25519 5 none (.other [1, 2]))).2.2 rfl
      (Fingerprint.v6 (sha256 (imprintV6Bytes
        (PubKeyInner.mk .v6 .ed25519 5 none (.other [1, 2]))))) rfl).1⟩

/-- C7: version/algorithm legality at construction.  Every V2/V3 key with a
non-RSA algorithm is rejected, every key of a version other than V4 carrying
EdDSA-legacy or ECDH-over-Curve25519-legacy parameters is rejected, and no
key object with a forbidden combination is ever produced (the error values
are of the spec's InvalidKey kind: combinations forbidden by RFC 9580). -/
theorem pubkey_new_legality :
    (∀ v a c e p, (v = .v2 ∨ v = .v3) →
      ¬(a = .rsa ∨ a = .rsaEncrypt ∨ a = .rsaSign) →
      PubKeyInner.new v a c e p = .error .unsupportedVersionAlgo) ∧
    (∀ v a c (e : Option Nat) p, v ≠ .v4 → p.isEcdhCurve25519 = true →
      ∃ err, PubKeyInner.new v a c e p = .error err) ∧
    (∀ v a c (e : Option Nat) p, v ≠ .v4 → p.isEddsaLegacy = true →
      ∃ err, PubKeyInner.new v a c e p = .error err) ∧
    (∀ v a c e p k, PubKeyInner.new v a c e p = .ok k →
      (((v = .v2 ∨ v = .v3) → (a = .rsa ∨ a = .rsaEncrypt ∨ a = .rsaSign)) ∧
        (v ≠ .v4 → p.isEcdhCurve25519 = false ∧ p.isEddsaLegacy = false) ∧
        k = ⟨v, a, c, e, p⟩)) := by
  refine ⟨fun v a c e p hv ha => ?_, fun v a c e p hv hp => ?_,
    fun v a c e p hv hp => ?_, fun v a c e p k hk => ?_⟩
  · rw [PubKeyInner.new, if_pos ⟨hv, ha⟩]
  · rw [PubKeyInner.new]
    by_cases h1 : (v = .v2 ∨ v = .v3) ∧
        ¬(a = .rsa ∨ a = .rsaEncrypt ∨ a = .rsaSign)
    · exact ⟨_, by rw [if_pos h1]⟩
    · exact ⟨_, by rw [if_neg h1, if_pos ⟨hv, hp⟩]⟩
  · rw [PubKeyInner.new]
    by_cases h1 : (v = .v2 ∨ v = .v3) ∧
        ¬(a = .rsa ∨ a = .rsaEncrypt ∨ a = .rsaSign)
    · exact ⟨_, by rw [if_pos h1]⟩
    · by_cases h2 : v ≠ .v4 ∧ p.isEcdhCurve25519 = true
      · exact ⟨_, by rw [if_neg h1, if_pos h2]⟩
      · exact ⟨_, by rw [if_neg h1, if_neg h2, if_pos ⟨hv, hp⟩]⟩
  · rw [PubKeyInner.new] at hk
    by_cases h1 : (v = .v2 ∨ v = .v3) ∧
        ¬(a = .rsa ∨ a = .rsaEncrypt ∨ a = .rsaSign)
    · rw [if_pos h1] at hk
      cases hk
    · rw [if_neg h1] at hk
      by_cases h2 : v ≠ .v4 ∧ p.isEcdhCurve25519 = true
      · rw [if_pos h2] at hk
        cases hk
      · rw [if_neg h2] at hk
        by_cases h3 : v ≠ .v4 ∧ p.isEddsaLegacy = true
        · rw [if_pos h3] at hk
          cases hk
        · rw [if_neg h3] at hk
          cases hk
          refine ⟨fun hv => ?_, fun hv => ?_, rfl⟩
          · by_contra ha
            exact h1 ⟨hv, ha⟩
          · constructor
            · by_contra hc
              exact h2 ⟨hv, by simpa using hc⟩
            · by_contra hc
              exact h3 ⟨hv, by simpa using hc⟩

/-- C7 witness: the legality theorem applied to a V3 ECDSA key, a V6 key
with EdDSA-legacy parameters, a V6 key with legacy-Curve25519 ECDH
parameters, and a successfully constructed legal V4 key. -/
theorem pubkey_new_legality_witness :
    PubKeyInner.new .v3 .ecdsa 0 (some 1) (.other []) =
      .error .unsupportedVersionAlgo ∧
    (∃ err, PubKeyInner.new .v6 .ecdh 0 none (.ecdh (.curve25519 [1])) =
      .error err) ∧
    (∃ err, PubKeyInner.new .v6 .eddsaLegacy 0 none (.eddsaLegacy 5 [2]) =
      .error err) ∧
    ((( .v6 = KeyVer.v2 ∨ .v6 = KeyVer.v3) →
        (PubAlg.ed25519 = .rsa ∨ PubAlg.ed25519 = .rsaEncrypt ∨
          PubAlg.ed25519 = .rsaSign)) ∧
      (KeyVer.v6 ≠ .v4 →
        (PublicParams.other [7]).isEcdhCurve25519 = false ∧
        (PublicParams.other [7]).isEddsaLegacy = false) ∧
      (⟨.v6, .ed25519, 3, none, .other [7]⟩ : PubKeyInner) =
        ⟨.v6, .ed25519, 3, none, .other [7]⟩) :=
  ⟨pubkey_new_legality.1 .v3 .ecdsa 0 (some 1) (.other []) (Or.inr rfl) (by decide),
    pubkey_new_legality.2.1 .v6 .ecdh 0 none (.ecdh (.curve25519 [1])) (by decide) rfl,
    pubkey_new_legality.2.2.1 .v6 .eddsaLegacy 0 none (.eddsaLegacy 5 [2]) (by decide) rfl,
    pubkey_new_legality.2.2.2 .v6 .ed25519 3 none (.other [7]) _ rfl⟩

/-! ## Public-key parameter parsing (`src/packet/public_key_parser.rs`)

Parsers consume a byte list and return the remaining input and a value, or a
parse error.  `incomplete` models nom's streaming `Incomplete`,
`invalidInput` the `Error::InvalidInput` failures (and `map_opt`/`tag`/
`map_res` rejections), `message` the `Error::Message` of the `pub_len`
consistency check. -/

inductive PErr
  | incomplete
  | invalidInput
  | message
  | unsupportedKey
deriving DecidableEq, Repr

/-- Spec §7 error taxonomy: framing/length/grammar violations are the
MalformedInput kind. -/
def PErr.isMalformedKind : PErr → Bool
  | .invalidInput => true
  | .message => true
  | _ => false

def readBytes (n : Nat) (i : List Nat) : Except PErr (List Nat × List Nat) :=
  if i.length < n then .error .incomplete else .ok (i.drop n, i.take n)

def readU8 (i : List Nat) : Except PErr (List Nat × Nat) :=
  if i.length < 1 then .error .incomplete else .ok (i.drop 1, i.headD 0)

def readBe32 (i : List Nat) : Except PErr (List Nat × Nat) :=
  if i.length < 4 then .error .incomplete else .ok (i.drop 4, word (i.take 4))

/-- Modelled from the spec (glossary): an MPI is a 2-byte big-endian bit
count followed by `⌈bits/8⌉` big-endian magnitude bytes. -/
def readMpi (i : List Nat) : Except PErr (List Nat × List Nat) :=
  if i.length < 2 then .error .incomplete
  else readBytes ((word (i.take 2) + 7) / 8) (i.drop 2)

/-- Modelled from the spec: `SymmetricKeyAlgorithm::try_from` accepts the
RFC 9580 symmetric algorithm identifiers (0 through 13). -/
def symAlgValid (b : Nat) : Bool := b ≤ 13

/-- The `ecdh` field parser: length-prefixed curve OID, then for the listed
curves an EC point MPI, a one-octet KDF field length, the reserved octet
0x01, the KDF hash id and the wrap-cipher id (`map_res` on
`SymmetricKeyAlgorithm::try_from`); other known curves produce the
Unsupported variant without consuming further bytes. -/
def parseEcdh (i : List Nat) : Except PErr (List Nat × PublicParams) :=
  (readU8 i).bind fun r0 =>
  (readBytes r0.2 r0.1).bind fun r1 =>
  match ecc_curve_from_oid r1.2 with
  | none => .error .invalidInput
  | some cid =>
    if cid = 4 ∨ cid = 1 ∨ cid = 2 ∨ cid = 3 then
      (readMpi r1.1).bind fun r2 =>
      (readU8 r2.1).bind fun _r3 =>
      (readU8 _r3.1).bind fun r4 =>
      if r4.2 ≠ 1 then .error .invalidInput
      else
        (readU8 r4.1).bind fun r5 =>
        (readU8 r5.1).bind fun r6 =>
        if symAlgValid r6.2 then .ok (r6.1, .ecdh (.known cid r2.2 r5.2 r6.2))
        else .error .invalidInput
    else .ok (r1.1, .ecdh (.unsupportedCurve cid))

/-- The `ecdsa` field parser: length-prefixed curve OID and an EC point MPI;
`EcdsaPublicParams::try_from_mpi` bounds the point length for the curves
with native support (the external SEC1 point validation consumes no input
and is treated as accepting). -/
def parseEcdsa (i : List Nat) : Except PErr (List Nat × PublicParams) :=
  (readU8 i).bind fun r0 =>
  (readBytes r0.2 r0.1).bind fun r1 =>
  match ecc_curve_from_oid r1.2 with
  | none => .error .invalidInput
  | some cid =>
    (readMpi r1.1).bind fun r2 =>
    if (cid = 1 ∨ cid = 6) ∧ 65 < r2.2.length then .error .message
    else if cid = 2 ∧ 97 < r2.2.length then .error .message
    else if cid = 3 ∧ 133 < r2.2.length then .error .message
    else .ok (r2.1, .ecdsa cid r2.2)

/-- The `eddsa_legacy` field parser: length-prefixed curve OID and a point
MPI. -/
def parseEddsaLegacy (i : List Nat) : Except PErr (List Nat × PublicParams) :=
  (readU8 i).bind fun r0 =>
  (readBytes r0.2 r0.1).bind fun r1 =>
  match ecc_curve_from_oid r1.2 with
  | none => .error .invalidInput
  | some cid =>
    (readMpi r1.1).bind fun r2 => .ok (r2.1, .eddsaLegacy cid r2.2)

/-- Embedding of `parse_pub_fields` (lines 187-223): the per-algorithm field
parsers.  The `unstable-curve448` feature is off in this build, so `X448`
takes the `unknown` path, as do `Ed448`, Diffie-Hellman and the private and
unknown algorithm ids. -/
def parse_pub_fields (typ : PubAlg) (len : Option Nat) (i : List Nat) :
    Except PErr (List Nat × PublicParams) :=
  match typ with
  | .rsa | .rsaEncrypt | .rsaSign =>
    (readMpi i).bind fun r1 =>
    (readMpi r1.1).bind fun r2 => .ok (r2.1, .rsa r1.2 r2.2)
  | .dsa =>
    (readMpi i).bind fun r1 =>
    (readMpi r1.1).bind fun r2 =>
    (readMpi r2.1).bind fun r3 =>
    (readMpi r3.1).bind fun r4 => .ok (r4.1, .dsa r1.2 r2.2 r3.2 r4.2)
  | .elgamal =>
    (readMpi i).bind fun r1 =>
    (readMpi r1.1).bind fun r2 =>
    (readMpi r2.1).bind fun r3 => .ok (r3.1, .elgamal r1.2 r2.2 r3.2)
  | .ecdsa => parseEcdsa i
  | .ecdh => parseEcdh i
  | .eddsaLegacy => parseEddsaLegacy i
  | .ed25519 => (readBytes 32 i).bind fun r => .ok (r.1, .ed25519 r.2)
  | .x25519 => (readBytes 32 i).bind fun r => .ok (r.1, .x25519 r.2)
  | _ =>
    match len with
    | some l => (readBytes l i).bind fun r => .ok (r.1, .unknownParams r.2)
    | none => .ok (i, .unknownParams [])

/-- Embedding of `public_key_parser_v4_v6` (lines 225-280), parameterized by
the field parser (the source passes the closure `parse_pub_fields(alg,
pub_len)`): read the 4-byte creation time and the algorithm octet; for V6
read the 4-byte parameter length, reject zero and reject inputs shorter than
the declared length; run the field parser; for V6 check that exactly the
declared number of bytes was consumed (`Error::Message` otherwise). -/
def public_key_parser_v4_v6
    (pf : Option Nat → List Nat → Except PErr (List Nat × PublicParams))
    (keyVer : KeyVer) (i : List Nat) :
    Except PErr (List Nat × (KeyVer × Nat × Nat × Option Nat × PublicParams)) :=
  (readBe32 i).bind fun r1 =>
  (readU8 r1.1).bind fun r2 =>
  (if keyVer = .v6 then
    (readBe32 r2.1).bind fun r3 =>
    if r3.2 = 0 then .error .invalidInput
    else if r3.1.length < r3.2 then .error .invalidInput
    else .ok (r3.1, some r3.2)
  else .ok (r2.1, (none : Option Nat))).bind fun r4 =>
  (pf r4.2 r4.1).bind fun r5 =>
  match r4.2 with
  | some len =>
    if r4.1.length - len ≠ r5.1.length then .error .message
    else .ok (r5.1, (keyVer, r2.2, r1.2, none, r5.2))
  | none => .ok (r5.1, (keyVer, r2.2, r1.2, none, r5.2))

/-- Any input shorter than the 9 fixed V6 header bytes (4 creation time,
1 algorithm, 4 parameter length) fails as incomplete. -/
theorem pkp_v6_short
    (pf : Option Nat → List Nat → Except PErr (List Nat × PublicParams))
    (i : List Nat) (h : i.length < 9) :
    public_key_parser_v4_v6 pf .v6 i = .error .incomplete := by
  have hd5 : (i.drop 4).drop 1 = i.drop 5 := by simp
  rw [public_key_parser_v4_v6]
  by_cases h4 : i.length < 4
  · rw [readBe32, if_pos h4, ebind_error]
  · rw [readBe32, if_neg h4, ebind_ok]
    by_cases h5 : i.length < 5
    · rw [readU8, if_pos (by simp [List.length_drop]; omega), ebind_error]
    · rw [readU8, if_neg (by simp [List.length_drop]; omega), ebind_ok, hd5,
        if_pos rfl, readBe32, if_pos (by simp [List.length_drop]; omega),
        ebind_error, ebind_error]

/-- With at least the 9 fixed bytes present, the V6 parser reduces to the
declared-length checks around the field parser. -/
theorem pkp_v6_reduce
    (pf : Option Nat → List Nat → Except PErr (List Nat × PublicParams))
    (i : List Nat) (h : 9 ≤ i.length) :
    public_key_parser_v4_v6 pf .v6 i =
      (if word ((i.drop 5).take 4) = 0 then .error .invalidInput
       else if (i.drop 9).length < word ((i.drop 5).take 4) then .error .invalidInput
       else
        (pf (some (word ((i.drop 5).take 4))) (i.drop 9)).bind fun r5 =>
          if (i.drop 9).length - word ((i.drop 5).take 4) ≠ r5.1.length then
            .error .message
          else .ok (r5.1, (.v6, (i.drop 4).headD 0, word (i.take 4), none, r5.2))) := by
  have hd5 : (i.drop 4).drop 1 = i.drop 5 := by simp
  have hd9 : (i.drop 5).drop 4 = i.drop 9 := by simp
  rw [public_key_parser_v4_v6, readBe32, if_neg (by omega), ebind_ok, readU8,
    if_neg (by simp [List.length_drop]; omega), ebind_ok, hd5, if_pos rfl,
    readBe32, if_neg (by simp [List.length_drop]; omega), ebind_ok, hd9]
  by_cases h0 : word ((i.drop 5).take 4) = 0
  · rw [if_pos h0, ebind_error, if_pos h0]
  · rw [if_neg h0, if_neg h0]
    by_cases h1 : (i.drop 9).length < word ((i.drop 5).take 4)
    · rw [if_pos h1, ebind_error, if_pos h1]
    · rw [if_neg h1, if_neg h1, ebind_ok]

/-- C6: the V6 parameter length prefix is verified exactly.  Parsing
succeeds only when the declared length is nonzero, no more than the
available bytes, and exactly equal to the number of bytes the
algorithm-specific field parser consumed; a zero declared length, a declared
length larger than the available input, or a field parser that consumes
fewer or more bytes than declared each fail with a MalformedInput-kind
error (`InvalidInput` resp. the `Message` consistency error). -/
theorem v6_params_len_verified
    (pf : Option Nat → List Nat → Except PErr (List Nat × PublicParams))
    (i : List Nat) :
    (∀ rest out, public_key_parser_v4_v6 pf .v6 i = .ok (rest, out) →
      9 ≤ i.length ∧
      word ((i.drop 5).take 4) ≠ 0 ∧
      word ((i.drop 5).take 4) ≤ (i.drop 9).length ∧
      (i.drop 9).length - rest.length = word ((i.drop 5).take 4) ∧
      pf (some (word ((i.drop 5).take 4))) (i.drop 9) = .ok (rest, out.2.2.2.2)) ∧
    (9 ≤ i.length → word ((i.drop 5).take 4) = 0 →
      public_key_parser_v4_v6 pf .v6 i = .error .invalidInput) ∧
    (9 ≤ i.length → (i.drop 9).length < word ((i.drop 5).take 4) →
      public_key_parser_v4_v6 pf .v6 i = .error .invalidInput) ∧
    (∀ r, 9 ≤ i.length → word ((i.drop 5).take 4) ≠ 0 →
      word ((i.drop 5).take 4) ≤ (i.drop 9).length →
      pf (some (word ((i.drop 5).take 4))) (i.drop 9) = .ok r →
      (i.drop 9).length - r.1.length ≠ word ((i.drop 5).take 4) →
      public_key_parser_v4_v6 pf .v6 i = .error .message) ∧
    (PErr.isMalformedKind .invalidInput = true ∧
      PErr.isMalformedKind .message = true) := by
  refine ⟨fun rest out hok => ?_, fun h9 h0 => ?_, fun h9 h1 => ?_,
    fun r h9 h0 h1 hpf hne => ?_, rfl, rfl⟩
  · by_cases h9 : 9 ≤ i.length
    · rw [pkp_v6_reduce pf i h9] at hok
      by_cases h0 : word ((i.drop 5).take 4) = 0
      · rw [if_pos h0] at hok
        cases hok
      · rw [if_neg h0] at hok
        by_cases h1 : (i.drop 9).length < word ((i.drop 5).take 4)
        · rw [if_pos h1] at hok
          cases hok
        · rw [if_neg h1] at hok
          cases hpf : pf (some (word ((i.drop 5).take 4))) (i.drop 9) with
          | error e =>
            rw [hpf, ebind_error] at hok
            cases hok
          | ok r5 =>
            rw [hpf, ebind_ok] at hok
            by_cases hchk : (i.drop 9).length - word ((i.drop 5).take 4) ≠ r5.1.length
            · rw [if_pos hchk] at hok
              cases hok
            · rw [if_neg hchk] at hok
              push_neg at hchk
              cases hok
              refine ⟨h9, h0, by omega, by omega, ?_⟩
              rfl
    · rw [pkp_v6_short pf i (by omega)] at hok
      cases hok
  · rw [pkp_v6_reduce pf i h9, if_pos h0]
  · rw [pkp_v6_reduce pf i h9]
    by_cases h0 : word ((i.drop 5).take 4) = 0
    · rw [if_pos h0]
    · rw [if_neg h0, if_pos h1]
  · rw [pkp_v6_reduce pf i h9, if_neg h0,
      if_neg (by omega : ¬(i.drop 9).length < word ((i.drop 5).take 4)), hpf,
      ebind_ok, if_pos ?_]
    omega

/-- C6 witness: the length-verification theorem applied to a concrete V6
Ed25519 key (success with exact consumption), a zero declared length, a
declared length exceeding the available bytes, and a declared length of 31
for a 32-byte Ed25519 key (parameters consume more than declared). -/
theorem v6_params_len_verified_witness :
    (9 ≤ (([0, 0, 0, 1, 27, 0, 0, 0, 32] ++ List.replicate 32 9 : List Nat)).length ∧
      word (((([0, 0, 0, 1, 27, 0, 0, 0, 32] ++ List.replicate 32 9 :
        List Nat)).drop 5).take 4) ≠ 0 ∧
      word (((([0, 0, 0, 1, 27, 0, 0, 0, 32] ++ List.replicate 32 9 :
        List Nat)).drop 5).take 4) ≤
        ((([0, 0, 0, 1, 27, 0, 0, 0, 32] ++ List.replicate 32 9 :
          List Nat)).drop 9).length ∧
      ((([0, 0, 0, 1, 27, 0, 0, 0, 32] ++ List.replicate 32 9 :
        List Nat)).drop 9).length - ([] : List Nat).length =
        word (((([0, 0, 0, 1, 27, 0, 0, 0, 32] ++ List.replicate 32 9 :
          List Nat)).drop 5).take 4) ∧
      parse_pub_fields .ed25519
          (some (word (((([0, 0, 0, 1, 27, 0, 0, 0, 32] ++ List.replicate 32 9 :
            List Nat)).drop 5).take 4)))
          ((([0, 0, 0, 1, 27, 0, 0, 0, 32] ++ List.replicate 32 9 :
            List Nat)).drop 9) =
        .ok ([], PublicParams.ed25519 (List.replicate 32 9))) ∧
    public_key_parser_v4_v6 (parse_pub_fields .ed25519) .v6
        [0, 0, 0, 1, 27, 0, 0, 0, 0, 5] = .error .invalidInput ∧
    public_key_parser_v4_v6 (parse_pub_fields .ed25519) .v6
        ([0, 0, 0, 1, 27, 0, 0, 0, 40] ++ List.replicate 32 9) =
      .error .invalidInput ∧
    public_key_parser_v4_v6 (parse_pub_fields .ed25519) .v6
        ([0, 0, 0, 1, 27, 0, 0, 0, 31] ++ List.replicate 32 9) = .error .message :=
  ⟨(v6_params_len_verified (parse_pub_fields .ed25519)
      ([0, 0, 0, 1, 27, 0, 0, 0, 32] ++ List.replicate 32 9)).1 []
      (.v6, 27, 1, none, .ed25519 (List.replicate 32 9)) rfl,
    (v6_params_len_verified (parse_pub_fields .ed25519)
      [0, 0, 0, 1, 27, 0, 0, 0, 0, 5]).2.1 (by decide) (by decide),
    (v6_params_len_verified (parse_pub_fields .ed25519)
      ([0, 0, 0, 1, 27, 0, 0, 0, 40] ++ List.replicate 32 9)).2.2.1 (by decide)
      (by decide),
    (v6_params_len_verified (parse_pub_fields .ed25519)
      ([0, 0, 0, 1, 27, 0, 0, 0, 31] ++ List.replicate 32 9)).2.2.2.1
      ([], .ed25519 (List.replicate 32 9)) (by decide) (by decide) (by decide)
      rfl (by decide)⟩

/-! ## Message grammar: ESK collection and filtering
(`src/composed/message/parser.rs`)

The streaming reader machinery is modelled as a list of already-framed
packets, distinguished exactly as far as the grammar walk in `next`
distinguishes them. -/

/-- An encrypted session key with its version (`Esk`): PKESK versions 3/6,
SKESK versions 4/6 in practice, any version at this level. -/
inductive Esk
  | pkesk (version : Nat)
  | skesk (version : Nat)
deriving DecidableEq, Repr

/-- The encrypted-container variants relevant to ESK filtering
(`Edata::SymEncryptedData` and `Edata::SymEncryptedProtectedData` with
config V1 or V2). -/
inductive EdataKind
  | sed
  | seipdV1
  | seipdV2
deriving DecidableEq, Repr

/-- One parsed packet of the message stream. -/
inductive PacketM
  | esk (e : Esk)
  | edata (k : EdataKind)
  | literal
  | padding
  | marker
  | otherTag (tag : Nat)
deriving DecidableEq, Repr

/-- A parsed message level, restricted to the cases the ESK claims
concern. -/
inductive MessageM
  | encrypted (esks : List Esk) (k : EdataKind)
  | literalMsg
deriving DecidableEq, Repr

inductive MsgErr
  | missingEdata
  | unexpectedTag
deriving DecidableEq, Repr

/-- Embedding of `esk_filter` (lines 164-171): keep only the PKESKs and
SKESKs whose version equals the allowed one. -/
def esk_filter (esks : List Esk) (pkeskAllowed skeskAllowed : Nat) : List Esk :=
  esks.filter fun e =>
    match e with
    | .pkesk v => v == pkeskAllowed
    | .skesk v => v == skeskAllowed

/-- The allowed (PKESK, SKESK) versions per edata kind (`next`, lines
56-70): SED and SEIPD-v1 containers take v3/v4, SEIPD-v2 takes v6/v6. -/
def allowedVersions : EdataKind → Nat × Nat
  | .sed => (3, 4)
  | .seipdV1 => (3, 4)
  | .seipdV2 => (6, 6)

/-- Version alignment of one ESK with an edata kind. -/
def eskAligned (e : Esk) (k : EdataKind) : Bool :=
  match e with
  | .pkesk v => v == (allowedVersions k).1
  | .skesk v => v == (allowedVersions k).2

/-- The ESK-collection loop of `next` (lines 40-88): gather ESKs, skip
padding and marker packets, stop at the edata packet; any other tag fails,
and a stream that ends without edata fails with the missing-edata error. -/
def collectEsks :
    List PacketM → List Esk → Except MsgErr (List Esk × EdataKind × List PacketM)
  | [], _ => .error .missingEdata
  | p :: rest, acc =>
    match p with
    | .esk e => collectEsks rest (acc ++ [e])
    | .edata k => .ok (acc, k, rest)
    | .padding => collectEsks rest acc
    | .marker => collectEsks rest acc
    | _ => .error .unexpectedTag

/-- The outer loop of `next` (lines 17-156) for the cases relevant here: a
leading ESK starts an Encrypted message whose collected ESKs are filtered by
the edata's version family, literal data yields a Literal message, padding
and markers are skipped, and an edata packet without a preceding ESK or any
other tag is an error. -/
def nextMessage : List PacketM → Except MsgErr (Option MessageM)
  | [] => .ok none
  | p :: rest =>
    match p with
    | .esk e =>
      (collectEsks rest [e]).bind fun r =>
        .ok (some (.encrypted
          (esk_filter r.1 (allowedVersions r.2.1).1 (allowedVersions r.2.1).2) r.2.1))
    | .edata _ => .error .unexpectedTag
    | .literal => .ok (some .literalMsg)
    | .padding => nextMessage rest
    | .marker => nextMessage rest
    | .otherTag _ => .error .unexpectedTag

/-- C8: ESK filtering.  When the packet stream starts with an ESK and the
collection loop reaches an edata packet, parsing succeeds (regardless of how
many collected ESKs survive filtering — the result may be empty) and the
resulting Encrypted node carries exactly the version-filtered ESK list; an
ESK passes the filter for the observed edata kind if and only if it was
collected and its version is aligned with the edata family (so every ESK of
the other family is discarded); and every Encrypted node that parsing
returns contains only aligned ESKs. -/
theorem esk_filtering_invariant :
    (∀ (e0 : Esk) (rest : List PacketM) (esksC : List Esk) (k : EdataKind)
        (remaining : List PacketM),
      collectEsks rest [e0] = .ok (esksC, k, remaining) →
      nextMessage (.esk e0 :: rest) =
        .ok (some (.encrypted
          (esk_filter esksC (allowedVersions k).1 (allowedVersions k).2) k))) ∧
    (∀ (esks : List Esk) (k : EdataKind) (e : Esk),
      e ∈ esk_filter esks (allowedVersions k).1 (allowedVersions k).2 ↔
        e ∈ esks ∧ eskAligned e k = true) ∧
    (∀ (pkts : List PacketM) (esks : List Esk) (k : EdataKind),
      nextMessage pkts = .ok (some (.encrypted esks k)) →
      ∀ e ∈ esks, eskAligned e k = true) := by
  have hmem : ∀ (esks : List Esk) (k : EdataKind) (e : Esk),
      e ∈ esk_filter esks (allowedVersions k).1 (allowedVersions k).2 ↔
        e ∈ esks ∧ eskAligned e k = true := by
    intro esks k e
    cases e with
    | pkesk v => simp [esk_filter, eskAligned, List.mem_filter]
    | skesk v => simp [esk_filter, eskAligned, List.mem_filter]
  refine ⟨fun e0 rest esksC k remaining hc => ?_, hmem, fun pkts => ?_⟩
  · rw [nextMessage, hc, ebind_ok]
  · induction pkts with
    | nil =>
      intro esks k h
      cases h
    | cons p rest ih =>
      intro esks k h
      cases p with
      | esk e =>
        rw [nextMessage] at h
        cases hc : collectEsks rest [e] with
        | error err =>
          rw [hc, ebind_error] at h
          cases h
        | ok r =>
          rw [hc, ebind_ok] at h
          cases h
          intro x hx
          exact ((hmem r.1 r.2.1 x).mp hx).2
      | edata k2 =>
        rw [nextMessage] at h
        cases h
      | literal =>
        rw [nextMessage] at h
        cases h
      | padding =>
        rw [nextMessage] at h
        exact ih esks k h
      | marker =>
        rw [nextMessage] at h
        exact ih esks k h
      | otherTag t =>
        rw [nextMessage] at h
        cases h

/-- C8 witness: the filtering theorem applied to a concrete stream mixing
both ESK families before a SEIPD-v2 container (the v3 PKESK is discarded,
the v6 ESKs are kept), to the membership property at a discarded ESK, and to
a stream whose only ESK is discarded (parsing still succeeds with an empty
ESK list). -/
theorem esk_filtering_invariant_witness :
    nextMessage [.esk (.pkesk 3), .esk (.skesk 6), .marker, .esk (.pkesk 6),
        .edata .seipdV2] =
      .ok (some (.encrypted
        (esk_filter [.pkesk 3, .skesk 6, .pkesk 6] (allowedVersions .seipdV2).1
          (allowedVersions .seipdV2).2) .seipdV2)) ∧
    ¬(Esk.pkesk 3 ∈ esk_filter [.pkesk 3, .skesk 6, .pkesk 6]
        (allowedVersions .seipdV2).1 (allowedVersions .seipdV2).2) ∧
    nextMessage [.esk (.pkesk 3), .edata .seipdV2] =
      .ok (some (.encrypted
        (esk_filter [.pkesk 3] (allowedVersions .seipdV2).1
          (allowedVersions .seipdV2).2) .seipdV2)) :=
  ⟨esk_filtering_invariant.1 (.pkesk 3)
      [.esk (.skesk 6), .marker, .esk (.pkesk 6), .edata .seipdV2]
      [.pkesk 3, .skesk 6, .pkesk 6] .seipdV2 [] rfl,
    (by
      intro hin
      have h := (esk_filtering_invariant.2.1 [.pkesk 3, .skesk 6, .pkesk 6]
        .seipdV2 (.pkesk 3)).mp hin
      exact absurd h.2 (by decide)),
    esk_filtering_invariant.1 (.pkesk 3) [.edata .seipdV2] [.pkesk 3] .seipdV2 []
      rfl⟩

end Rpgp
